import Mathlib

/-!
Verification of the multiannotator consensus module: a shallow embedding of
`cleanlab/multiannotator.py` over lists and exact rational arithmetic.
Labels are natural-number class ids; a missing label (a NaN cell) is `none`.
Computations that can raise in numpy (out-of-bounds fancy indexing, reductions
of empty arrays, drawing from an empty candidate set) are modelled by `Option`,
with `none` for the raising path.
-/

namespace Multiannotator

/-- A cell of the label matrix: a class id, or `none` for a missing (NaN) label. -/
abbrev Cell := Option ℕ

/-- The label matrix: one row per example, one column per annotator.
`M` is the number of annotator columns (a pandas DataFrame is rectangular). -/
structure LabelMatrix where
  M : ℕ
  rows : List (List Cell)
deriving DecidableEq

/-- Rectangularity of the label matrix, as a pandas DataFrame guarantees it. -/
def LabelMatrix.Wf (lm : LabelMatrix) : Prop :=
  ∀ r ∈ lm.rows, r.length = lm.M

/-- The non-missing labels of one row, in annotator-column order (pandas dropna). -/
def rowLabels (r : List Cell) : List ℕ := r.filterMap id

/-- Number of non-missing labels in a row (pandas count). -/
def countSome (r : List Cell) : ℕ := (rowLabels r).length

/-- Per-example annotation counts, `labels_multiannotator.count(axis=1)`. -/
def numAnnotationsOf (lm : LabelMatrix) : List ℕ := lm.rows.map countSome

/-- Structural validation performed by `get_label_quality_multiannotator` before any
statistics are computed; returns the message of the first failing check, mirroring
the four ValueError branches of the source. -/
def validateError (lm : LabelMatrix) : Option String :=
  if lm.rows.any fun r => r.all fun c => c.isNone then
    some "labels_multiannotator cannot have rows with all NaN"
  else if (List.range lm.M).any fun j => lm.rows.all fun r => (r.getD j none).isNone then
    some "labels_multiannotator cannot have columns with all NaN"
  else if lm.M ≤ 1 then
    some "labels_multiannotator must have more than one column"
  else if lm.rows.all fun r => countSome r == 1 then
    some "each example only has one label"
  else
    none

/-- Mean of a list of rationals, `np.mean`; junk value 0 on the empty list (numpy
would produce NaN there — theorems about means carry nonemptiness hypotheses). -/
def meanQ (l : List ℚ) : ℚ := l.sum / l.length

/-- Insertion into a ≤-sorted list of naturals. -/
def insertNat (a : ℕ) : List ℕ → List ℕ
  | [] => [a]
  | b :: t => if a ≤ b then a :: b :: t else b :: insertNat a t

/-- Insertion sort on naturals (ascending), modelling pandas' sorted outputs. -/
def sortNat : List ℕ → List ℕ
  | [] => []
  | a :: t => insertNat a (sortNat t)

/-- Ascending list of the distinct values of `l` (a pandas value index). -/
def sortedDistinct (l : List ℕ) : List ℕ := sortNat l.dedup

/-- Modes of one row: the classes attaining the maximal count among the row's
non-missing labels, ascending (pandas `DataFrame.mode` restricted to one row). -/
def modes (r : List Cell) : List ℕ :=
  let labs := rowLabels r
  let d := sortedDistinct labs
  let mx := (d.map fun c => labs.count c).foldr max 0
  d.filter fun c => labs.count c = mx

/-- Every non-missing label of the matrix, row by row. -/
def allLabels (lm : LabelMatrix) : List ℕ := (lm.rows.map rowLabels).flatten

/-- Ascending list of the distinct class values present anywhere in the matrix:
the column index produced by `apply(value_counts, axis=1)`. -/
def presentClasses (lm : LabelMatrix) : List ℕ := sortedDistinct (allLabels lm)

/-- Total count of each present class over the whole matrix, laid out positionally
over `presentClasses` exactly as `apply(value_counts, axis=1).sum().to_numpy()`. -/
def classFreqList (lm : LabelMatrix) : List ℕ :=
  (presentClasses lm).map fun c => (allLabels lm).count c

/-- The candidates whose stage value equals the stage maximum, in order:
`label_mode[np.where(vals == mx)[0]]`. -/
def keptOf {α : Type} [DecidableEq α] (mx : α) (cs : List ℕ) (vals : List α) :
    List ℕ :=
  (cs.zip vals).filterMap fun p => if p.2 = mx then some p.1 else none

/-- One tie-break stage: numpy `where(vals == vals.max())` followed by selecting the
single winner or shrinking the candidate set; `none` models `np.max` of an empty
array raising. -/
def stageSelect {α : Type} [LinearOrder α] (cs : List ℕ) (vals : List α) :
    Option (Sum ℕ (List ℕ)) :=
  match vals with
  | [] => none
  | v :: vs =>
    match keptOf (List.foldr max v vs) cs (v :: vs) with
    | [c] => some (Sum.inl c)
    | k => some (Sum.inr k)

/-- Tie-break stage 1: by the example's predicted probabilities; skipped when no
predicted probabilities were supplied. `none` models the IndexError raised when a
candidate class id is out of the probability row's bounds. -/
def afterStage1 (ppRow : Option (List ℚ)) (cs : List ℕ) : Option (Sum ℕ (List ℕ)) :=
  match ppRow with
  | none => some (Sum.inr cs)
  | some pr =>
    match cs.mapM fun c => pr.get? c with
    | none => none
    | some vals => stageSelect cs vals

/-- Tie-break stage 2: by global class frequencies indexed positionally
(`class_frequencies[label_mode]`); `none` models the IndexError raised when a
candidate class id falls outside the positional frequency array. -/
def afterStage2 (freqs : List ℕ) (cs : List ℕ) : Option (Sum ℕ (List ℕ)) :=
  match cs.mapM fun c => freqs.get? c with
  | none => none
  | some vals => stageSelect cs vals

/-- The rows whose mode is unique, paired with that mode: the examples recorded in
`nontied_idx` together with their majority-vote labels. -/
def nontiedPairs (lm : LabelMatrix) : List (List Cell × ℕ) :=
  lm.rows.filterMap fun r =>
    match modes r with
    | [c] => some (r, c)
    | _ => none

/-- Stage-3 context: each annotator's agreement rate with the consensus over the
uniquely-moded examples; `none` is the NaN produced by a mean over no examples. -/
def stage3Agreements (lm : LabelMatrix) : List (Option ℚ) :=
  (List.range lm.M).map fun j =>
    let sel := (nontiedPairs lm).filterMap fun p =>
      (p.1.getD j none).map fun l => (l, p.2)
    match sel with
    | [] => none
    | _ => some (meanQ (sel.map fun q => if q.1 = q.2 then (1 : ℚ) else 0))

/-- Tie-break stage 3: by the mean stage-3 agreement of the annotators who proposed
each candidate for this example. A NaN among the per-candidate scores makes the
numpy `== max` mask empty, shrinking the tie set to nothing. -/
def afterStage3 (ags : List (Option ℚ)) (r : List Cell) (cs : List ℕ) :
    Option (Sum ℕ (List ℕ)) :=
  let score : ℕ → Option ℚ := fun c =>
    let contrib := (List.range r.length).filterMap fun j =>
      if r.getD j none = some c then some j else none
    match contrib.mapM fun j => ags.getD j none with
    | none => none
    | some vs => if vs = [] then none else some (meanQ vs)
  match cs.mapM score with
  | none => some (Sum.inr [])
  | some vals => stageSelect cs vals

/-- Final fallback: a uniform random draw among the remaining candidates, modelled
by the injected `rand`; `none` models `np.random.choice` of an empty set raising. -/
def afterStage4 (rand : ℕ → List ℕ → ℕ) (idx : ℕ) (cs : List ℕ) : Option ℕ :=
  match cs with
  | [] => none
  | _ => some (rand idx cs)

/-- Chaining of one tie-break stage with the rest of the cascade: a raising stage
raises, a resolving stage resolves, a shrinking stage hands the smaller candidate
set to the next stage. -/
def step (s : Option (Sum ℕ (List ℕ))) (k : List ℕ → Option ℕ) : Option ℕ :=
  match s with
  | none => none
  | some (Sum.inl c) => some c
  | some (Sum.inr cs) => k cs

/-- The tie-break cascade for one tied example. -/
def resolveTied (freqs : List ℕ) (ags : List (Option ℚ)) (rand : ℕ → List ℕ → ℕ)
    (idx : ℕ) (r : List Cell) (ppRow : Option (List ℚ)) (cs : List ℕ) : Option ℕ :=
  step (afterStage1 ppRow cs) fun cs1 =>
    step (afterStage2 freqs cs1) fun cs2 =>
      step (afterStage3 ags r cs2) fun cs3 =>
        afterStage4 rand idx cs3

/-- Resolution of a single example: a unique mode is assigned directly, anything
else goes through the cascade; the global inputs (`freqs`, `ags`) are fixed before
any tie is processed, exactly as in the source. -/
def resolveExample (freqs : List ℕ) (ags : List (Option ℚ)) (rand : ℕ → List ℕ → ℕ)
    (idx : ℕ) (r : List Cell) (ppRow : Option (List ℚ)) : Option ℕ :=
  let cs0 := modes r
  if cs0.length = 1 then some (cs0.headD 0)
  else resolveTied freqs ags rand idx r ppRow cs0

/-- Sequential option-valued map over example indices: the whole call fails as soon
as the resolution of any example raises. -/
def mapOpt (f : ℕ → Option ℕ) : List ℕ → Option (List ℕ)
  | [] => some []
  | i :: t =>
    match f i, mapOpt f t with
    | some c, some out => some (c :: out)
    | _, _ => none

/-- `get_majority_vote_label`: per-example mode plus the four-stage tie-break
cascade; `pp = none` is a call without predicted probabilities. -/
def getMajorityVoteLabel (lm : LabelMatrix) (pp : Option (List (List ℚ)))
    (rand : ℕ → List ℕ → ℕ) : Option (List ℕ) :=
  let freqs := classFreqList lm
  let ags := stage3Agreements lm
  mapOpt
    (fun i => resolveExample freqs ags rand i (lm.rows.getD i [])
      (pp.map fun p => p.getD i []))
    (List.range lm.rows.length)

/-- Maximum of a list (`np.max`), with a default for the empty list; every use on
the raising numpy paths guards emptiness separately. -/
def listMax {α : Type} [LinearOrder α] (d : α) : List α → α
  | [] => d
  | v :: vs => List.foldr max v vs

/-- Minimum of a list (pandas `.min()`), with a default for the empty list. -/
def listMin {α : Type} [LinearOrder α] (d : α) : List α → α
  | [] => d
  | v :: vs => List.foldr min v vs

/-- First index attaining the maximum (`np.argmax`). -/
def firstArgmax {α : Type} [LinearOrder α] (d : α) (l : List α) : ℕ :=
  l.findIdx fun x => x = listMax d l

/-- Modelled from the spec: `get_num_classes` (imported from
`cleanlab.internal.util`, which is not in src) — the number of classes `K` is the
width of the predicted-probability matrix (spec data model: an N x K matrix). -/
def numClasses (pp : List (List ℚ)) : ℕ := (pp.headD []).length

/-- Modelled from the spec: the external single-label quality scorer
`get_label_quality_scores` (imported from `cleanlab.rank`, which is not in src).
The spec fixes only its boundary: row-by-row scores in [0,1], monotonically
non-decreasing in the predicted probability of the given label; we take the
canonical such scorer, the predicted probability of the given label itself. -/
def lqScore (cl : ℕ) (ppr : List ℚ) : ℚ := ppr.getD cl 0

/-- Per-example agreement of the annotators with a consensus vector: the mean over
a row's non-missing labels of agreement with that example's consensus label. -/
def rowAgreement (r : List Cell) (cl : ℕ) : ℚ :=
  meanQ ((rowLabels r).map fun l => if l = cl then (1 : ℚ) else 0)

/-- `_get_annotator_agreement_with_consensus`. -/
def annotatorAgreementWithConsensus (lm : LabelMatrix) (consensus : List ℕ) : List ℚ :=
  List.zipWith rowAgreement lm.rows consensus

/-- The consensus labels of the multiply-annotated examples
(`consensus_label[num_annotations != 1]`). -/
def multiSubset (lm : LabelMatrix) (consensus : List ℕ) : List ℕ :=
  (List.zipWith (fun cl n => (cl, n)) consensus (numAnnotationsOf lm)).filterMap
    fun p => if p.2 ≠ 1 then some p.1 else none

/-- The predicted-probability rows of the multiply-annotated examples. -/
def ppMultiSubset (lm : LabelMatrix) (pp : List (List ℚ)) : List (List ℚ) :=
  (List.zipWith (fun r n => (r, n)) pp (numAnnotationsOf lm)).filterMap
    fun p => if p.2 ≠ 1 then some p.1 else none

/-- `likelihood`: the mean per-example agreement over examples whose annotation
count differs from one. -/
def likelihood (lm : LabelMatrix) (consensus : List ℕ) : ℚ :=
  meanQ ((List.zipWith (fun a n => (a, n))
      (annotatorAgreementWithConsensus lm consensus) (numAnnotationsOf lm)).filterMap
    fun p => if p.2 ≠ 1 then some p.1 else none)

/-- `np.bincount(l, minlength = k)` for values all below `k`. -/
def bincountK (l : List ℕ) (k : ℕ) : List ℕ := (List.range k).map fun c => l.count c

/-- The single globally most frequent class of the consensus subset
(`np.argmax(np.bincount(...))`). -/
def mostFrequentClass (sub : List ℕ) (k : ℕ) : ℕ := firstArgmax 0 (bincountK sub k)

/-- `most_likely_class_error`: fraction of multiply-annotated examples whose
consensus label differs from the globally most frequent class. -/
def mostLikelyClassError (lm : LabelMatrix) (consensus : List ℕ) (k : ℕ) : ℚ :=
  let sub := multiSubset lm consensus
  meanQ (sub.map fun cl => if cl ≠ mostFrequentClass sub k then (1 : ℚ) else 0)

/-- One annotator's average agreement with the other annotators on jointly labeled
examples, weighted by annotation count minus one; `none` is the NaN produced when
the weights sum to zero (`np.average` raising, caught by the bare except). -/
def singleAnnotatorAgreement (lm : LabelMatrix) (j : ℕ) : Option ℚ :=
  let sel := lm.rows.filterMap fun r => (r.getD j none).map fun l => (r, l)
  let vals := sel.map fun p =>
    let others := rowLabels (p.1.eraseIdx j)
    if others = [] then (0 : ℚ)
    else meanQ (others.map fun l => if l = p.2 then (1 : ℚ) else 0)
  let ws := sel.map fun p => ((countSome p.1 : ℚ) - 1)
  if ws.sum = 0 then none
  else some ((List.zipWith (fun v w => v * w) vals ws).sum / ws.sum)

/-- `_get_annotator_agreement_with_annotators` with the imputation step: annotators
with no overlap receive the mean agreement of the annotators that have some. -/
def imputedAgreements (lm : LabelMatrix) : List ℚ :=
  let raw := (List.range lm.M).map fun j => singleAnnotatorAgreement lm j
  let avg := meanQ (raw.filterMap id)
  raw.map fun a => a.getD avg

/-- The crowdlab model weight and adjusted annotator weights. The division by
`most_likely_class_error` has no zero guard in the source; a total embedding makes
it an error branch, returned as `none`. `sqrtFn` stands for `np.sqrt`, left
uninterpreted because square roots of rationals are irrational in general; no
verified claim depends on its values. -/
def crowdlabWeights (lm : LabelMatrix) (pp : List (List ℚ)) (consensus : List ℕ)
    (sqrtFn : ℚ → ℚ) : Option (ℚ × List ℚ) :=
  let k := numClasses pp
  let e := mostLikelyClassError lm consensus k
  if e = 0 then none
  else
    let adjusted := (imputedAgreements lm).map fun a =>
      max (1 - (1 - a) / e) (1 / 1000000)
    let modelError := meanQ (List.zipWith
      (fun r cl => if firstArgmax (0 : ℚ) r ≠ cl then (1 : ℚ) else 0)
      (ppMultiSubset lm pp) (multiSubset lm consensus))
    let mw := max (1 - modelError / e) (1 / 1000000) *
      sqrtFn (meanQ (List.map (Nat.cast : ℕ → ℚ) (numAnnotationsOf lm)))
    some (mw, adjusted)

/-- `np.average(vals, weights = ws)`. -/
def npAverage (vals ws : List ℚ) : ℚ := (List.zipWith (fun v w => v * w) vals ws).sum / ws.sum

/-- The (label, adjusted weight) pairs of the annotators who labeled a row, in
column order (`example_mask` applied to both the row and the weight vector). -/
def labeledPairs (r : List Cell) (adj : List ℚ) : List (ℕ × ℚ) :=
  (r.zip adj).filterMap fun p => p.1.map fun l => (l, p.2)

/-- One example's crowdlab posterior row: per class, the weighted average of the
model's predicted probability and each contributing annotator's vote evidence. -/
def crowdlabPostRow (k : ℕ) (lh mw : ℚ) (adj : List ℚ) (r : List Cell)
    (ppr : List ℚ) : List ℚ :=
  let pairs := labeledPairs r adj
  (List.range k).map fun c =>
    npAverage
      (ppr.getD c 0 :: pairs.map fun p => if p.1 = c then lh else (1 - lh) / ((k : ℚ) - 1))
      (mw :: pairs.map Prod.snd)

/-- The crowdlab branch of `_get_post_pred_probs_and_weights`: posterior matrix,
model weight and adjusted annotator weights. -/
def crowdlabPost (lm : LabelMatrix) (pp : List (List ℚ)) (consensus : List ℕ)
    (sqrtFn : ℚ → ℚ) : Option (List (List ℚ) × ℚ × List ℚ) :=
  (crowdlabWeights lm pp consensus sqrtFn).map fun w =>
    let lh := likelihood lm consensus
    (List.zipWith (crowdlabPostRow (numClasses pp) lh w.1 w.2) lm.rows pp, w.1, w.2)

/-- The agreement branch of `_get_post_pred_probs_and_weights`: per-row class vote
counts over the positionally laid-out present classes, divided by the row's
annotation count (`apply(value_counts, axis=1).fillna(0) / num_annotations`). -/
def agreementPost (lm : LabelMatrix) : List (List ℚ) :=
  List.zipWith
    (fun r n => (presentClasses lm).map fun c => ((rowLabels r).count c : ℚ) / n)
    lm.rows (List.map (Nat.cast : ℕ → ℚ) (numAnnotationsOf lm))

/-- Quality method flag, the valid set of `quality_method` strings. -/
inductive QualityMethod
  | crowdlab
  | agreement
deriving DecidableEq

/-- The outputs of `_get_consensus_stats`: agreement vector, consensus quality
scores, posterior matrix, and (for crowdlab only) the two weights. -/
structure ConsensusStats where
  agreement : List ℚ
  qualityScore : List ℚ
  post : List (List ℚ)
  modelWeight : Option ℚ
  annotatorWeights : Option (List ℚ)
deriving DecidableEq

/-- `_get_consensus_stats`: agreement with the consensus, posterior probabilities
with weights, then the consensus quality score (crowdlab delegates to the external
scorer on the posterior; agreement reuses the agreement vector). -/
def getConsensusStats (lm : LabelMatrix) (pp : List (List ℚ)) (consensus : List ℕ)
    (qm : QualityMethod) (sqrtFn : ℚ → ℚ) : Option ConsensusStats :=
  let agree := annotatorAgreementWithConsensus lm consensus
  match qm with
  | .crowdlab =>
    (crowdlabPost lm pp consensus sqrtFn).map fun w =>
      ⟨agree, List.zipWith lqScore consensus w.1, w.1, some w.2.1, some w.2.2⟩
  | .agreement => some ⟨agree, agree, agreementPost lm, none, none⟩

/-- Positions of the row entries equal to the row maximum
(`np.where(row == np.max(row))[0]`); empty for an empty row. -/
def maxPositions (row : List ℚ) : List ℕ :=
  match row with
  | [] => []
  | v :: vs => keptOf (List.foldr max v vs) (List.range (v :: vs).length) (v :: vs)

/-- The `best_quality` re-pick: per example, the argmax of the majority-vote
posterior row when unique, otherwise the majority-vote label. -/
def bestQualityLabel (post : List (List ℚ)) (mv : List ℕ) : List ℕ :=
  (List.range mv.length).map fun i =>
    match maxPositions (post.getD i []) with
    | [j] => j
    | _ => mv.getD i 0

/-- Consensus method flag, the valid set of `consensus_method` strings. -/
inductive ConsensusMethod
  | majorityVote
  | bestQuality
deriving DecidableEq

/-- The consensus orchestrator `get_label_quality_multiannotator`, restricted to one
consensus method: validate, take the majority vote, compute its stats, and for
`best_quality` re-pick the labels from the majority-vote posterior and run a fresh
full pass of the consensus-stats computation on the new label vector. -/
def getLabelQualityMA (lm : LabelMatrix) (pp : List (List ℚ)) (cm : ConsensusMethod)
    (qm : QualityMethod) (sqrtFn : ℚ → ℚ) (rand : ℕ → List ℕ → ℕ) :
    Option (List ℕ × ConsensusStats) :=
  match validateError lm with
  | some _ => none
  | none =>
    match getMajorityVoteLabel lm (some pp) rand with
    | none => none
    | some mv =>
      match getConsensusStats lm pp mv qm sqrtFn with
      | none => none
      | some mvStats =>
        match cm with
        | .majorityVote => some (mv, mvStats)
        | .bestQuality =>
          let bq := bestQualityLabel mvStats.post mv
          (getConsensusStats lm pp bq qm sqrtFn).map fun s => (bq, s)

/-- The crowdlab combination of an annotator's own label-quality term with their
agreement-with-consensus term, `w * lqs + (1 - w) * agreement`. -/
def crowdlabCombine (w lqs agree : ℚ) : ℚ := w * lqs + (1 - w) * agree

/-- `_get_annotator_quality`: for crowdlab, the `crowdlabCombine` of the mean
label-quality of the annotator's own labels (scored against the posterior) with
their agreement over multiply-annotated examples; for agreement, the latter only. -/
def annotatorQuality (lm : LabelMatrix) (pp : List (List ℚ)) (consensus : List ℕ)
    (mw : ℚ) (aw : List ℚ) (qm : QualityMethod) : List ℚ :=
  let multiRows := (List.zipWith (fun r cl => (r, cl)) lm.rows consensus).filterMap
    fun p => if countSome p.1 ≠ 1 then some p else none
  let agreeMulti := (List.range lm.M).map fun j =>
    meanQ (multiRows.filterMap fun p =>
      (p.1.getD j none).map fun l => if l = p.2 then (1 : ℚ) else 0)
  match qm with
  | .crowdlab =>
    let annotatorLqs := (List.range lm.M).map fun j =>
      meanQ ((lm.rows.zip pp).filterMap fun p =>
        (p.1.getD j none).map fun l => lqScore l p.2)
    let avgFrac := meanQ (List.map (Nat.cast : ℕ → ℚ) (numAnnotationsOf lm)) / aw.length
    let adjusted := aw.sum * avgFrac
    let w := mw / (mw + adjusted)
    List.zipWith (fun l a => crowdlabCombine w l a) annotatorLqs agreeMulti
  | .agreement => agreeMulti

/-- The reported per-annotator agreement-with-consensus statistic, over all of the
annotator's labeled examples (singly-annotated ones included). -/
def agreementWithConsensusAll (lm : LabelMatrix) (consensus : List ℕ) : List ℚ :=
  (List.range lm.M).map fun j =>
    meanQ ((List.zipWith (fun r cl => (r, cl)) lm.rows consensus).filterMap
      fun p => (p.1.getD j none).map fun l => if l = p.2 then (1 : ℚ) else 0)

/-- `_get_annotator_worst_class` for one annotator: group their labels by class,
take the class of minimal accuracy against the consensus, break ties by larger
group size, then by higher mean consensus quality, then by first class id. -/
def worstClassOf (lm : LabelMatrix) (consensus : List ℕ) (qs : List ℚ) (j : ℕ) : ℕ :=
  let trip := (List.zipWith (fun r p => (r.getD j none, p)) lm.rows
      (consensus.zip qs)).filterMap fun p => p.1.map fun l => (l, p.2.1, p.2.2)
  let classes := sortedDistinct (trip.map fun t => t.1)
  let grp := fun c => trip.filter fun t => t.1 = c
  let acc := fun c => meanQ ((grp c).map fun t => if t.1 = t.2.1 then (1 : ℚ) else 0)
  let mn := listMin 0 (classes.map acc)
  let accMin := classes.filter fun c => acc c = mn
  match accMin with
  | [c] => c
  | _ =>
    let cnt := fun c => (grp c).length
    let mxC := listMax 0 (accMin.map cnt)
    let cntMax := accMin.filter fun c => cnt c = mxC
    match cntMax with
    | [c] => c
    | _ =>
      let qmean := fun c => meanQ ((grp c).map fun t => t.2.2)
      let mxQ := listMax 0 (cntMax.map qmean)
      (cntMax.filter fun c => qmean c = mxQ).headD 0

/-- One row of the annotator stats table. -/
structure AnnotatorRow where
  quality : ℚ
  agreementC : ℚ
  worst : ℕ
  numLabeled : ℕ
deriving DecidableEq

/-- The two-key ascending comparison used by
`sort_values(by = [annotator_quality, agreement_with_consensus])`. -/
def rowLexLe (r1 r2 : AnnotatorRow) : Bool :=
  decide (r1.quality < r2.quality) ||
    (decide (r1.quality = r2.quality) && decide (r1.agreementC ≤ r2.agreementC))

/-- Stable insertion into a `rowLexLe`-sorted list. -/
def insertRow (a : AnnotatorRow) : List AnnotatorRow → List AnnotatorRow
  | [] => [a]
  | b :: t => if rowLexLe a b then a :: b :: t else b :: insertRow a t

/-- Stable sort of the annotator stats rows by `rowLexLe`. -/
def sortRows : List AnnotatorRow → List AnnotatorRow
  | [] => []
  | a :: t => insertRow a (sortRows t)

/-- `_get_annotator_stats`: assemble quality, agreement-with-consensus, worst class
and label counts per annotator, sorted ascending by (quality, agreement). -/
def annotatorStats (lm : LabelMatrix) (pp : List (List ℚ)) (consensus : List ℕ)
    (mw : ℚ) (aw : List ℚ) (qs : List ℚ) (qm : QualityMethod) : List AnnotatorRow :=
  let q := annotatorQuality lm pp consensus mw aw qm
  let ac := agreementWithConsensusAll lm consensus
  sortRows ((List.range lm.M).map fun j =>
    ⟨q.getD j 0, ac.getD j 0, worstClassOf lm consensus qs j,
      (lm.rows.filterMap fun r => r.getD j none).length⟩)

end Multiannotator

namespace Multiannotator

theorem mapOpt_eq_some {f : ℕ → Option ℕ} :
    ∀ {l out : List ℕ}, mapOpt f l = some out →
      out.length = l.length ∧ ∀ k, k < l.length → f (l.getD k 0) = some (out.getD k 0) := by
  intro l
  induction l with
  | nil =>
    intro out h
    simp only [mapOpt] at h
    cases h
    exact ⟨rfl, fun k hk => absurd hk (Nat.not_lt_zero k)⟩
  | cons i t ih =>
    intro out h
    simp only [mapOpt] at h
    cases hf : f i with
    | none => rw [hf] at h; exact absurd h (by simp)
    | some c =>
      cases ht : mapOpt f t with
      | none => rw [hf, ht] at h; exact absurd h (by simp)
      | some o =>
        rw [hf, ht] at h
        cases h
        rcases ih ht with ⟨hlen, hget⟩
        refine ⟨by simp [hlen], fun k hk => ?_⟩
        cases k with
        | zero => simpa using hf
        | succ k' => simpa using hget k' (Nat.lt_of_succ_lt_succ hk)

theorem getD_range {n k : ℕ} (h : k < n) : (List.range n).getD k 0 = k := by
  simp [List.getD, List.getElem?_range h]

theorem filterMap_if_zip_sublist {α : Type} (P : α → Prop) [DecidablePred P] :
    ∀ (cs : List ℕ) (vals : List α),
      List.Sublist ((cs.zip vals).filterMap fun q => if P q.2 then some q.1 else none)
        cs := by
  intro cs
  induction cs with
  | nil => intro vals; simp
  | cons a t ih =>
    intro vals
    cases vals with
    | nil => simp
    | cons v vs =>
      simp only [List.zip_cons_cons, List.filterMap_cons]
      by_cases hp : P v
      · simp only [hp, if_pos]
        exact List.Sublist.cons₂ a (ih vs)
      · simp only [hp, if_neg, not_false_iff]
        exact List.Sublist.cons a (ih vs)

theorem keptOf_sublist {α : Type} [DecidableEq α] (mx : α) (cs : List ℕ)
    (vals : List α) : List.Sublist (keptOf mx cs vals) cs := by
  unfold keptOf
  exact filterMap_if_zip_sublist (fun x => x = mx) cs vals

theorem stageSelect_inl_mem {α : Type} [LinearOrder α] {cs : List ℕ} {vals : List α}
    {c : ℕ} (h : stageSelect cs vals = some (Sum.inl c)) : c ∈ cs := by
  unfold stageSelect at h
  cases vals with
  | nil => exact absurd h (by simp)
  | cons v vs =>
    have h2 : (match keptOf (List.foldr max v vs) cs (v :: vs) with
        | [c] => some (Sum.inl c)
        | k => some (Sum.inr k)) = some (Sum.inl c) := h
    rcases hkept : keptOf (List.foldr max v vs) cs (v :: vs) with _ | ⟨a, _ | ⟨b, t2⟩⟩ <;>
      rw [hkept] at h2
    · exact absurd h2 (by simp)
    · have hac : a = c := by simpa using h2
      have hmem : c ∈ keptOf (List.foldr max v vs) cs (v :: vs) := by
        rw [hkept, hac]
        exact List.mem_cons_self c []
      exact (keptOf_sublist (List.foldr max v vs) cs (v :: vs)).subset hmem
    · exact absurd h2 (by simp)

theorem stageSelect_inr_sublist {α : Type} [LinearOrder α] {cs : List ℕ}
    {vals : List α} {k : List ℕ} (h : stageSelect cs vals = some (Sum.inr k)) :
    List.Sublist k cs := by
  unfold stageSelect at h
  cases vals with
  | nil => exact absurd h (by simp)
  | cons v vs =>
    have h2 : (match keptOf (List.foldr max v vs) cs (v :: vs) with
        | [c] => some (Sum.inl c)
        | k => some (Sum.inr k)) = some (Sum.inr k) := h
    rcases hkept : keptOf (List.foldr max v vs) cs (v :: vs) with _ | ⟨a, _ | ⟨b, t2⟩⟩ <;>
      rw [hkept] at h2
    · have hk : ([] : List ℕ) = k := by simpa using h2
      exact hk ▸ List.nil_sublist cs
    · exact absurd h2 (by simp)
    · have hk : a :: b :: t2 = k := by simpa using h2
      exact hk ▸ (hkept ▸ keptOf_sublist (List.foldr max v vs) cs (v :: vs))

theorem keptOf_cons_pos {α : Type} [DecidableEq α] {mx v : α} (hv : v = mx)
    (a : ℕ) (t : List ℕ) (vs : List α) :
    keptOf mx (a :: t) (v :: vs) = a :: keptOf mx t vs := by
  simp [keptOf, List.zip_cons_cons, List.filterMap_cons, if_pos hv]

theorem keptOf_cons_neg {α : Type} [DecidableEq α] {mx v : α} (hv : ¬v = mx)
    (a : ℕ) (t : List ℕ) (vs : List α) :
    keptOf mx (a :: t) (v :: vs) = keptOf mx t vs := by
  simp [keptOf, List.zip_cons_cons, List.filterMap_cons, if_neg hv]

theorem le_foldr_max {α : Type} [LinearOrder α] :
    ∀ (vs : List α) (v : α), ∀ x ∈ v :: vs, x ≤ List.foldr max v vs := by
  intro vs
  induction vs with
  | nil =>
    intro v x hx
    have : x = v := by simpa using hx
    simp [this]
  | cons w t ih =>
    intro v x hx
    simp only [List.foldr_cons]
    rcases List.mem_cons.mp hx with hxv | hx2
    · exact le_max_of_le_right (hxv ▸ ih v v (List.mem_cons_self v t))
    · rcases List.mem_cons.mp hx2 with hxw | hxt
      · exact hxw ▸ le_max_left w (List.foldr max v t)
      · exact le_max_of_le_right (ih v x (List.mem_cons_of_mem v hxt))

theorem foldr_max_mem {α : Type} [LinearOrder α] :
    ∀ (vs : List α) (v : α), List.foldr max v vs ∈ v :: vs := by
  intro vs
  induction vs with
  | nil => intro v; simp
  | cons w t ih =>
    intro v
    simp only [List.foldr_cons]
    rcases max_cases w (List.foldr max v t) with ⟨heq, _⟩ | ⟨heq, _⟩
    · rw [heq]; exact List.mem_cons_of_mem v (List.mem_cons_self w t)
    · rw [heq]
      rcases List.mem_cons.mp (ih v) with h1 | h2
      · rw [h1]; exact List.mem_cons_self v (w :: t)
      · exact List.mem_cons_of_mem v (List.mem_cons_of_mem w h2)

theorem keptOf_eq_nil {α : Type} [DecidableEq α] {mx : α} :
    ∀ (cs : List ℕ) (vals : List α),
      (∀ k x, vals.get? k = some x → x ≠ mx) → keptOf mx cs vals = [] := by
  intro cs
  induction cs with
  | nil => intro vals _; simp [keptOf]
  | cons a t ih =>
    intro vals h
    cases vals with
    | nil => simp [keptOf]
    | cons v vs =>
      have hv : ¬v = mx := h 0 v rfl
      rw [keptOf_cons_neg hv]
      exact ih vs fun k x hk => h (k + 1) x hk

theorem keptOf_eq_nil_imp {α : Type} [DecidableEq α] {mx : α} :
    ∀ (cs : List ℕ) (vals : List α), cs.length = vals.length →
      keptOf mx cs vals = [] → ∀ k x, vals.get? k = some x → x ≠ mx := by
  intro cs
  induction cs with
  | nil =>
    intro vals hlen _ k x hk
    cases vals with
    | nil => simp at hk
    | cons v vs => simp at hlen
  | cons a t ih =>
    intro vals hlen hnil k x hk
    cases vals with
    | nil => simp at hk
    | cons v vs =>
      by_cases hv : v = mx
      · rw [keptOf_cons_pos hv] at hnil
        exact absurd hnil (by simp)
      · cases k with
        | zero =>
          have hvx : v = x := by simpa using hk
          exact hvx ▸ hv
        | succ k2 =>
          rw [keptOf_cons_neg hv] at hnil
          exact ih vs (by simpa using hlen) hnil k2 x hk

theorem keptOf_eq_single {α : Type} [DecidableEq α] {mx : α} :
    ∀ (cs : List ℕ) (vals : List α) (j : ℕ),
      cs.length = vals.length →
      vals.get? j = some mx →
      (∀ k x, vals.get? k = some x → k ≠ j → x ≠ mx) →
      keptOf mx cs vals = [cs.getD j 0] := by
  intro cs
  induction cs with
  | nil =>
    intro vals j hlen hj _
    cases vals with
    | nil => simp at hj
    | cons v vs => simp at hlen
  | cons a t ih =>
    intro vals j hlen hj hother
    cases vals with
    | nil => simp at hj
    | cons v vs =>
      cases j with
      | zero =>
        have hv : v = mx := by simpa using hj
        rw [keptOf_cons_pos hv,
          keptOf_eq_nil t vs fun k x hk => hother (k + 1) x hk (Nat.succ_ne_zero k)]
        simp
      | succ j2 =>
        have hv : ¬v = mx := hother 0 v rfl (by simp)
        rw [keptOf_cons_neg hv,
          ih vs j2 (by simpa using hlen) hj
            fun k x hk hkj => hother (k + 1) x hk (by simpa using hkj)]
        simp

theorem keptOf_singleton_imp {α : Type} [DecidableEq α] {mx : α} :
    ∀ (cs : List ℕ) (vals : List α) (c : ℕ),
      cs.length = vals.length →
      keptOf mx cs vals = [c] →
      ∃ j, vals.get? j = some mx ∧ cs.get? j = some c ∧
        ∀ k x, vals.get? k = some x → k ≠ j → x ≠ mx := by
  intro cs
  induction cs with
  | nil =>
    intro vals c hlen h
    cases vals with
    | nil => simp [keptOf] at h
    | cons v vs => simp at hlen
  | cons a t ih =>
    intro vals c hlen h
    cases vals with
    | nil => simp [keptOf] at h
    | cons v vs =>
      by_cases hv : v = mx
      · rw [keptOf_cons_pos hv] at h
        have hac : a = c := by
          have := List.head_eq_of_cons_eq h; simpa using this
        have hrest : keptOf mx t vs = [] := List.tail_eq_of_cons_eq h
        refine ⟨0, by simpa using hv, by simpa using hac, ?_⟩
        intro k x hk hk0
        cases k with
        | zero => exact absurd rfl hk0
        | succ k2 =>
          exact keptOf_eq_nil_imp t vs (by simpa using hlen) hrest k2 x hk
      · rw [keptOf_cons_neg hv] at h
        obtain ⟨j, hj1, hj2, hother⟩ := ih vs c (by simpa using hlen) h
        refine ⟨j + 1, by simpa using hj1, by simpa using hj2, ?_⟩
        intro k x hk hkj
        cases k with
        | zero =>
          have hvx : v = x := by simpa using hk
          exact hvx ▸ hv
        | succ k2 =>
          exact hother k2 x hk fun he => hkj (by rw [he])

theorem stageSelect_eq_inl_of_strict {α : Type} [LinearOrder α] {cs : List ℕ}
    {vals : List α} {j : ℕ} {vj : α} (hlen : cs.length = vals.length)
    (hj : vals.get? j = some vj)
    (hstrict : ∀ k x, vals.get? k = some x → k ≠ j → x < vj) :
    stageSelect cs vals = some (Sum.inl (cs.getD j 0)) := by
  cases vals with
  | nil => simp at hj
  | cons v vs =>
    have hmx : List.foldr max v vs = vj := by
      rcases List.mem_iff_get?.mp (foldr_max_mem vs v) with ⟨k, hk⟩
      have hle : vj ≤ List.foldr max v vs :=
        le_foldr_max vs v vj (List.get?_mem hj)
      by_cases hkj : k = j
      · rw [hkj] at hk
        rw [hk] at hj
        exact (Option.some_inj.mp hj)
      · exact absurd (hstrict k (List.foldr max v vs) hk hkj) (not_lt.mpr hle)
    have hkept : keptOf (List.foldr max v vs) cs (v :: vs) = [cs.getD j 0] := by
      rw [hmx]
      exact keptOf_eq_single cs (v :: vs) j hlen hj
        fun k x hk hkj => ne_of_lt (hstrict k x hk hkj)
    simp only [stageSelect]
    rw [hkept]

theorem afterStage1_inl_mem {ppRow : Option (List ℚ)} {cs : List ℕ} {c : ℕ}
    (h : afterStage1 ppRow cs = some (Sum.inl c)) : c ∈ cs := by
  unfold afterStage1 at h
  cases ppRow with
  | none => exact absurd h (by simp)
  | some pr =>
    simp only at h
    cases hv : cs.mapM fun c => pr.get? c with
    | none => rw [hv] at h; exact absurd h (by simp)
    | some vals => rw [hv] at h; exact stageSelect_inl_mem h

theorem afterStage1_inr_sublist {ppRow : Option (List ℚ)} {cs k : List ℕ}
    (h : afterStage1 ppRow cs = some (Sum.inr k)) : List.Sublist k cs := by
  unfold afterStage1 at h
  cases ppRow with
  | none =>
    have : cs = k := by simpa using h
    exact this ▸ List.Sublist.refl k
  | some pr =>
    simp only at h
    cases hv : cs.mapM fun c => pr.get? c with
    | none => rw [hv] at h; exact absurd h (by simp)
    | some vals => rw [hv] at h; exact stageSelect_inr_sublist h

theorem afterStage2_inl_mem {freqs cs : List ℕ} {c : ℕ}
    (h : afterStage2 freqs cs = some (Sum.inl c)) : c ∈ cs := by
  unfold afterStage2 at h
  cases hv : cs.mapM fun c => freqs.get? c with
  | none => rw [hv] at h; exact absurd h (by simp)
  | some vals => rw [hv] at h; exact stageSelect_inl_mem h

theorem afterStage2_inr_sublist {freqs cs k : List ℕ}
    (h : afterStage2 freqs cs = some (Sum.inr k)) : List.Sublist k cs := by
  unfold afterStage2 at h
  cases hv : cs.mapM fun c => freqs.get? c with
  | none => rw [hv] at h; exact absurd h (by simp)
  | some vals => rw [hv] at h; exact stageSelect_inr_sublist h

theorem afterStage3_inl_mem {ags : List (Option ℚ)} {r : List Cell} {cs : List ℕ}
    {c : ℕ} (h : afterStage3 ags r cs = some (Sum.inl c)) : c ∈ cs := by
  unfold afterStage3 at h
  simp only at h
  cases hv : cs.mapM fun c =>
      match (((List.range r.length).filterMap fun j =>
          if r.getD j none = some c then some j else none).mapM
          fun j => ags.getD j none) with
      | none => none
      | some vs => if vs = [] then none else some (meanQ vs) with
  | none => rw [hv] at h; exact absurd h (by simp)
  | some vals => rw [hv] at h; exact stageSelect_inl_mem h

theorem afterStage3_inr_sublist {ags : List (Option ℚ)} {r : List Cell} {cs k : List ℕ}
    (h : afterStage3 ags r cs = some (Sum.inr k)) : List.Sublist k cs := by
  unfold afterStage3 at h
  simp only at h
  cases hv : cs.mapM fun c =>
      match (((List.range r.length).filterMap fun j =>
          if r.getD j none = some c then some j else none).mapM
          fun j => ags.getD j none) with
      | none => none
      | some vs => if vs = [] then none else some (meanQ vs) with
  | none =>
    rw [hv] at h
    have : ([] : List ℕ) = k := by simpa using h
    exact this ▸ List.nil_sublist cs
  | some vals => rw [hv] at h; exact stageSelect_inr_sublist h

theorem afterStage4_mem {rand : ℕ → List ℕ → ℕ}
    (hrand : ∀ i cs, cs ≠ [] → rand i cs ∈ cs) {idx : ℕ} {cs : List ℕ} {c : ℕ}
    (h : afterStage4 rand idx cs = some c) : c ∈ cs := by
  unfold afterStage4 at h
  cases cs with
  | nil => exact absurd h (by simp)
  | cons a t =>
    have : rand idx (a :: t) = c := by simpa using h
    exact this ▸ hrand idx (a :: t) (by simp)

theorem insertNat_perm (a : ℕ) : ∀ l : List ℕ, List.Perm (insertNat a l) (a :: l) := by
  intro l
  induction l with
  | nil => simp [insertNat]
  | cons b t ih =>
    unfold insertNat
    by_cases hab : a ≤ b
    · simp [hab]
    · simp only [hab, if_neg, not_false_iff]
      exact (List.Perm.cons b ih).trans (List.Perm.swap a b t)

theorem sortNat_perm : ∀ l : List ℕ, List.Perm (sortNat l) l := by
  intro l
  induction l with
  | nil => simp [sortNat]
  | cons a t ih => exact (insertNat_perm a (sortNat t)).trans (List.Perm.cons a ih)

theorem mem_sortedDistinct_iff {l : List ℕ} {c : ℕ} :
    c ∈ sortedDistinct l ↔ c ∈ l := by
  unfold sortedDistinct
  rw [(sortNat_perm l.dedup).mem_iff, List.mem_dedup]

theorem sortedDistinct_nodup (l : List ℕ) : (sortedDistinct l).Nodup :=
  ((sortNat_perm l.dedup).nodup_iff).mpr l.nodup_dedup

theorem mem_modes_mem_rowLabels {r : List Cell} {c : ℕ} (h : c ∈ modes r) :
    c ∈ rowLabels r := by
  unfold modes at h
  simp only at h
  exact mem_sortedDistinct_iff.mp (List.mem_of_mem_filter h)

theorem modes_nodup (r : List Cell) : (modes r).Nodup := by
  unfold modes
  exact (sortedDistinct_nodup (rowLabels r)).filter _

theorem resolveTied_mem {freqs : List ℕ} {ags : List (Option ℚ)}
    {rand : ℕ → List ℕ → ℕ} (hrand : ∀ i cs, cs ≠ [] → rand i cs ∈ cs)
    {idx : ℕ} {r : List Cell} {ppRow : Option (List ℚ)} {cs : List ℕ} {c : ℕ}
    (h : resolveTied freqs ags rand idx r ppRow cs = some c) : c ∈ cs := by
  unfold resolveTied at h
  cases hs1 : afterStage1 ppRow cs with
  | none => rw [hs1] at h; exact absurd h (by simp [step])
  | some s1 =>
    rw [hs1] at h
    cases s1 with
    | inl cc =>
      have hc : cc = c := by simpa [step] using h
      exact hc ▸ afterStage1_inl_mem hs1
    | inr k1 =>
      simp only [step] at h
      have hsub1 := afterStage1_inr_sublist hs1
      cases hs2 : afterStage2 freqs k1 with
      | none => rw [hs2] at h; exact absurd h (by simp [step])
      | some s2 =>
        rw [hs2] at h
        cases s2 with
        | inl cc =>
          have hc : cc = c := by simpa [step] using h
          exact hsub1.subset (hc ▸ afterStage2_inl_mem hs2)
        | inr k2 =>
          simp only [step] at h
          have hsub2 := afterStage2_inr_sublist hs2
          cases hs3 : afterStage3 ags r k2 with
          | none => rw [hs3] at h; exact absurd h (by simp [step])
          | some s3 =>
            rw [hs3] at h
            cases s3 with
            | inl cc =>
              have hc : cc = c := by simpa [step] using h
              exact hsub1.subset (hsub2.subset (hc ▸ afterStage3_inl_mem hs3))
            | inr k3 =>
              simp only [step] at h
              have hsub3 := afterStage3_inr_sublist hs3
              exact hsub1.subset (hsub2.subset (hsub3.subset (afterStage4_mem hrand h)))

theorem resolveExample_mem {freqs : List ℕ} {ags : List (Option ℚ)}
    {rand : ℕ → List ℕ → ℕ} (hrand : ∀ i cs, cs ≠ [] → rand i cs ∈ cs)
    {idx : ℕ} {r : List Cell} {ppRow : Option (List ℚ)} {c : ℕ}
    (h : resolveExample freqs ags rand idx r ppRow = some c) : c ∈ rowLabels r := by
  have hmem : c ∈ modes r := by
    simp only [resolveExample] at h
    by_cases hl : (modes r).length = 1
    · rw [if_pos hl] at h
      rcases List.length_eq_one.mp hl with ⟨a, ha⟩
      have : a = c := by simpa [ha] using h
      rw [ha, ← this]
      exact List.mem_cons_self a []
    · rw [if_neg hl] at h
      exact resolveTied_mem hrand h
  exact mem_modes_mem_rowLabels hmem

theorem mapM_get?_eq_map {pr : List ℚ} :
    ∀ {cs : List ℕ}, (∀ x ∈ cs, x < pr.length) →
      cs.mapM (fun c => pr.get? c) = some (cs.map fun c => pr.getD c 0) := by
  intro cs
  induction cs with
  | nil => intro _; rfl
  | cons a t ih =>
    intro hb
    have ha : pr.get? a = some (pr.getD a 0) := by
      have : a < pr.length := hb a (List.mem_cons_self a t)
      simp [List.getD, List.get?_eq_getElem?, List.getElem?_eq_getElem this]
    rw [List.mapM_cons, ha, ih fun x hx => hb x (List.mem_cons_of_mem a hx)]
    rfl

theorem afterStage1_eq_inl_of_strict {pr : List ℚ} {cs : List ℕ} {c : ℕ}
    (hnodup : cs.Nodup) (hc : c ∈ cs)
    (hbound : ∀ x ∈ cs, x < pr.length)
    (hstrict : ∀ x ∈ cs, x ≠ c → pr.getD x 0 < pr.getD c 0) :
    afterStage1 (some pr) cs = some (Sum.inl c) := by
  rcases List.mem_iff_get?.mp hc with ⟨j, hj⟩
  have hjlt : j < cs.length := by
    rcases List.get?_eq_some.mp hj with ⟨h, _⟩; exact h
  have hcd : cs.getD j 0 = c := by
    simp [List.getD, ← List.get?_eq_getElem?, hj]
  have hmapj : (cs.map fun x => pr.getD x 0).get? j = some (pr.getD c 0) := by
    rw [List.get?_eq_getElem?, List.getElem?_map, ← List.get?_eq_getElem?, hj]; rfl
  have hsel : stageSelect cs (cs.map fun x => pr.getD x 0) =
      some (Sum.inl (cs.getD j 0)) := by
    refine stageSelect_eq_inl_of_strict (by simp) hmapj ?_
    intro k x hk hkj
    have hklen : k < cs.length := by
      rcases List.get?_eq_some.mp hk with ⟨hl, _⟩
      simpa using hl
    have hkcs : cs.get? k = some (cs.get ⟨k, hklen⟩) := List.get?_eq_get hklen
    have hx : x = pr.getD (cs.get ⟨k, hklen⟩) 0 := by
      rw [List.get?_eq_getElem?, List.getElem?_map, ← List.get?_eq_getElem?, hkcs] at hk
      simpa using hk.symm
    have hne : cs.get ⟨k, hklen⟩ ≠ c := by
      intro he
      apply hkj
      apply List.get?_inj hklen hnodup
      rw [hkcs, hj, he]
    exact hx ▸ hstrict (cs.get ⟨k, hklen⟩) (List.get_mem cs k hklen) hne
  show (match mapM (fun c => pr.get? c) cs with
      | none => none
      | some vals => stageSelect cs vals) = some (Sum.inl c)
  rw [show mapM (fun c => pr.get? c) cs = cs.mapM (fun c => pr.get? c) from rfl,
    mapM_get?_eq_map hbound]
  exact hcd ▸ hsel

theorem resolveExample_stage1 {freqs : List ℕ} {ags : List (Option ℚ)}
    {rand : ℕ → List ℕ → ℕ} {idx : ℕ} {r : List Cell} {pr : List ℚ} {c : ℕ}
    (hmodes : (modes r).length ≠ 1) (hc : c ∈ modes r)
    (hbound : ∀ x ∈ modes r, x < pr.length)
    (hstrict : ∀ x ∈ modes r, x ≠ c → pr.getD x 0 < pr.getD c 0) :
    resolveExample freqs ags rand idx r (some pr) = some c := by
  have h1 := afterStage1_eq_inl_of_strict (modes_nodup r) hc hbound hstrict
  simp only [resolveExample, if_neg hmodes]
  unfold resolveTied
  rw [h1]
  rfl

theorem insertNat_pairwise {a : ℕ} :
    ∀ {l : List ℕ}, l.Pairwise (· ≤ ·) → (insertNat a l).Pairwise (· ≤ ·) := by
  intro l
  induction l with
  | nil => intro _; simp [insertNat]
  | cons b t ih =>
    intro hp
    unfold insertNat
    by_cases hab : a ≤ b
    · rw [if_pos hab]
      refine List.Pairwise.cons ?_ hp
      intro x hx
      rcases List.mem_cons.mp hx with h1 | h2
      · exact h1 ▸ hab
      · exact le_trans hab (List.rel_of_pairwise_cons hp h2)
    · rw [if_neg hab]
      have hba : b ≤ a := le_of_not_le hab
      rcases hp with - | ⟨hb, ht⟩
      refine List.Pairwise.cons ?_ (ih ht)
      intro x hx
      rcases List.mem_cons.mp ((insertNat_perm a t).mem_iff.mp hx) with h1 | h2
      · exact h1 ▸ hba
      · exact hb x h2

theorem sortNat_pairwise : ∀ l : List ℕ, (sortNat l).Pairwise (· ≤ ·) := by
  intro l
  induction l with
  | nil => simp [sortNat]
  | cons a t ih => exact insertNat_pairwise ih

theorem sortedDistinct_pairwise_lt (l : List ℕ) :
    (sortedDistinct l).Pairwise (· < ·) := by
  have h1 : (sortedDistinct l).Pairwise (· ≤ ·) := sortNat_pairwise l.dedup
  have h2 : (sortedDistinct l).Pairwise (· ≠ ·) := sortedDistinct_nodup l
  exact (h1.and h2).imp fun h => lt_of_le_of_ne h.1 h.2

theorem i_le_get_of_pairwise_lt {l : List ℕ} (hp : l.Pairwise (· < ·)) :
    ∀ i (h : i < l.length), i ≤ l.get ⟨i, h⟩ := by
  intro i
  induction i with
  | zero => intro h; exact Nat.zero_le _
  | succ n ih =>
    intro h
    have hn : n < l.length := Nat.lt_of_succ_lt h
    have h1 : l.get ⟨n, hn⟩ < l.get ⟨n + 1, h⟩ :=
      List.pairwise_iff_get.mp hp ⟨n, hn⟩ ⟨n + 1, h⟩ (Nat.lt_succ_self n)
    exact Nat.succ_le_of_lt (lt_of_le_of_lt (ih hn) h1)

theorem eq_range_of_pairwise_lt_dc {l : List ℕ} (hp : l.Pairwise (· < ·))
    (hdc : ∀ x ∈ l, ∀ y, y < x → y ∈ l) : l = List.range l.length := by
  have hget : ∀ i (h : i < l.length), l.get ⟨i, h⟩ = i := by
    intro i
    induction i using Nat.strong_induction_on with
    | _ i ih =>
      intro h
      have hge := i_le_get_of_pairwise_lt hp i h
      rcases Nat.eq_or_lt_of_le hge with heq | hlt
      · exact heq.symm
      · exfalso
        have hmem : i ∈ l := hdc (l.get ⟨i, h⟩) (l.get_mem i h) i hlt
        rcases List.mem_iff_get.mp hmem with ⟨⟨k, hk⟩, hkeq⟩
        rcases lt_trichotomy k i with h1 | h1 | h1
        · rw [ih k h1 hk] at hkeq
          exact Nat.ne_of_lt h1 hkeq
        · have h2 : l.get ⟨k, hk⟩ = l.get ⟨i, h⟩ := by subst h1; rfl
          rw [h2] at hkeq
          rw [hkeq] at hlt
          exact lt_irrefl i hlt
        · have hik : l.get ⟨i, h⟩ < l.get ⟨k, hk⟩ :=
            List.pairwise_iff_get.mp hp ⟨i, h⟩ ⟨k, hk⟩ h1
          rw [hkeq] at hik
          exact absurd hlt (not_lt.mpr (le_of_lt hik))
  refine List.ext_get (by simp) fun i h1 h2 => ?_
  rw [hget i h1, List.get_range]

theorem presentClasses_eq_range {lm : LabelMatrix}
    (hdc : ∀ x ∈ allLabels lm, ∀ y, y < x → y ∈ allLabels lm) :
    presentClasses lm = List.range (presentClasses lm).length := by
  refine eq_range_of_pairwise_lt_dc (sortedDistinct_pairwise_lt _) ?_
  intro x hx y hy
  exact mem_sortedDistinct_iff.mpr (hdc x (mem_sortedDistinct_iff.mp hx) y hy)

theorem classFreqList_get {lm : LabelMatrix}
    (hdc : ∀ x ∈ allLabels lm, ∀ y, y < x → y ∈ allLabels lm) {x : ℕ}
    (hx : x ∈ allLabels lm) :
    (classFreqList lm).get? x = some ((allLabels lm).count x) := by
  have hxm : x ∈ presentClasses lm := mem_sortedDistinct_iff.mpr hx
  have hr := presentClasses_eq_range hdc
  have hlt : x < (presentClasses lm).length := by
    rw [hr] at hxm
    simpa using hxm
  unfold classFreqList
  rw [List.get?_eq_getElem?, List.getElem?_map]
  have hgx : (presentClasses lm)[x]? = some x := by
    rw [hr, List.getElem?_range hlt]
  rw [hgx]
  rfl

theorem mapM_get?_of_forall {α : Type} {pr : List α} {g : ℕ → α} :
    ∀ {cs : List ℕ}, (∀ x ∈ cs, pr.get? x = some (g x)) →
      cs.mapM (fun c => pr.get? c) = some (cs.map g) := by
  intro cs
  induction cs with
  | nil => intro _; rfl
  | cons a t ih =>
    intro hb
    rw [List.mapM_cons, hb a (List.mem_cons_self a t),
      ih fun x hx => hb x (List.mem_cons_of_mem a hx)]
    rfl

theorem stageSelect_map_eq_inl {α : Type} [LinearOrder α] {cs : List ℕ} {f : ℕ → α}
    {c : ℕ} (hnodup : cs.Nodup) (hc : c ∈ cs)
    (hstrict : ∀ x ∈ cs, x ≠ c → f x < f c) :
    stageSelect cs (cs.map f) = some (Sum.inl c) := by
  rcases List.mem_iff_get?.mp hc with ⟨j, hj⟩
  have hcd : cs.getD j 0 = c := by simp [List.getD, ← List.get?_eq_getElem?, hj]
  have hmapj : (cs.map f).get? j = some (f c) := by
    rw [List.get?_eq_getElem?, List.getElem?_map, ← List.get?_eq_getElem?, hj]; rfl
  have hstrictPos : ∀ k x, (cs.map f).get? k = some x → k ≠ j → x < f c := by
    intro k x hk hkj
    have hklen : k < cs.length := by
      rcases List.get?_eq_some.mp hk with ⟨hl, _⟩
      simpa using hl
    have hkcs : cs.get? k = some (cs.get ⟨k, hklen⟩) := List.get?_eq_get hklen
    have hx : x = f (cs.get ⟨k, hklen⟩) := by
      rw [List.get?_eq_getElem?, List.getElem?_map, ← List.get?_eq_getElem?, hkcs] at hk
      simpa using hk.symm
    have hne : cs.get ⟨k, hklen⟩ ≠ c := by
      intro he
      apply hkj
      apply List.get?_inj hklen hnodup
      rw [hkcs, hj, he]
    exact hx ▸ hstrict (cs.get ⟨k, hklen⟩) (List.get_mem cs k hklen) hne
  have hsel := @stageSelect_eq_inl_of_strict α _ cs (cs.map f) j (f c)
    (by simp) hmapj hstrictPos
  rw [hcd] at hsel
  exact hsel

theorem afterStage2_eq_inl_of_strict {lm : LabelMatrix} {cs : List ℕ} {c : ℕ}
    (hdc : ∀ x ∈ allLabels lm, ∀ y, y < x → y ∈ allLabels lm)
    (hnodup : cs.Nodup) (hsub : ∀ x ∈ cs, x ∈ allLabels lm) (hc : c ∈ cs)
    (hstrict : ∀ x ∈ cs, x ≠ c → (allLabels lm).count x < (allLabels lm).count c) :
    afterStage2 (classFreqList lm) cs = some (Sum.inl c) := by
  have hmapm : cs.mapM (fun x => (classFreqList lm).get? x) =
      some (cs.map fun x => (allLabels lm).count x) :=
    mapM_get?_of_forall fun x hx => classFreqList_get hdc (hsub x hx)
  show (match cs.mapM (fun x => (classFreqList lm).get? x) with
      | none => none
      | some vals => stageSelect cs vals) = some (Sum.inl c)
  rw [hmapm]
  exact stageSelect_map_eq_inl hnodup hc hstrict

theorem rowLabels_getD_subset_allLabels {lm : LabelMatrix} {i : ℕ}
    (hi : i < lm.rows.length) :
    ∀ x ∈ rowLabels (lm.rows.getD i []), x ∈ allLabels lm := by
  intro x hx
  have hmem2 : lm.rows.getD i [] ∈ lm.rows := by
    have heq : lm.rows.getD i [] = lm.rows[i] := by
      simp [List.getD, List.getElem?_eq_getElem hi]
    rw [heq]
    exact List.getElem_mem hi
  unfold allLabels
  rw [List.mem_flatten]
  refine ⟨rowLabels (lm.rows.getD i []), ?_, hx⟩
  rw [List.mem_map]
  exact ⟨lm.rows.getD i [], hmem2, rfl⟩

theorem getD_of_lt {α : Type} {l : List α} {i : ℕ} {d : α} (h : i < l.length) :
    l.getD i d = l[i] := by
  simp [List.getD, List.getElem?_eq_getElem h]

theorem sum_count_over_superset {labs d : List ℕ} (hnd : d.Nodup)
    (hsub : ∀ x ∈ labs, x ∈ d) :
    (d.map fun c => labs.count c).sum = labs.length := by
  have h1 : (d.map fun c => labs.count c).sum = ∑ a ∈ d.toFinset, labs.count a :=
    (List.sum_toFinset _ hnd).symm
  have h2 : labs.toFinset ⊆ d.toFinset := fun x hx =>
    List.mem_toFinset.mpr (hsub x (List.mem_toFinset.mp hx))
  rw [h1, ← Finset.sum_subset h2 fun x _ hxn =>
    List.count_eq_zero.mpr fun hmem => hxn (List.mem_toFinset.mpr hmem)]
  exact List.sum_toFinset_count_eq_length labs

theorem sum_map_div {d : List ℕ} {f : ℕ → ℚ} {n : ℚ} :
    (d.map fun c => f c / n).sum = (d.map f).sum / n := by
  induction d with
  | nil => simp
  | cons a t ih => simp [ih, add_div]

theorem sum_map_natCast {d : List ℕ} {g : ℕ → ℕ} :
    (d.map fun c => ((g c : ℕ) : ℚ)).sum = ((d.map g).sum : ℚ) := by
  induction d with
  | nil => simp
  | cons a t ih => simp [ih]

theorem agreementPost_getD {lm : LabelMatrix} {i : ℕ} (hi : i < lm.rows.length) :
    (agreementPost lm).getD i [] = (presentClasses lm).map fun c =>
      ((rowLabels (lm.rows.getD i [])).count c : ℚ) /
        (countSome (lm.rows.getD i []) : ℚ) := by
  have hlen : (agreementPost lm).length = lm.rows.length := by
    unfold agreementPost numAnnotationsOf
    rw [List.length_zipWith, List.length_map, List.length_map, min_self]
  have hzi : i < (agreementPost lm).length := by rw [hlen]; exact hi
  rw [getD_of_lt hzi, getD_of_lt hi]
  unfold agreementPost
  rw [List.getElem_zipWith]
  simp only [numAnnotationsOf, List.getElem_map]

/-- C3: the validator fails exactly on the four structural defects. -/
theorem validateError_isSome_iff (lm : LabelMatrix) :
    (validateError lm).isSome = true ↔
      (∃ r ∈ lm.rows, ∀ c ∈ r, c = none) ∨
      (∃ j < lm.M, ∀ r ∈ lm.rows, r.getD j none = none) ∨
      lm.M ≤ 1 ∨
      (∀ r ∈ lm.rows, countSome r = 1) := by
  unfold validateError
  split_ifs with h1 h2 h3 h4
  · refine iff_of_true rfl (Or.inl ?_)
    rcases List.any_eq_true.mp h1 with ⟨r, hr, hall⟩
    exact ⟨r, hr, fun c hc => Option.isNone_iff_eq_none.mp (List.all_eq_true.mp hall c hc)⟩
  · refine iff_of_true rfl (Or.inr (Or.inl ?_))
    rcases List.any_eq_true.mp h2 with ⟨j, hj, hall⟩
    exact ⟨j, List.mem_range.mp hj,
      fun r hr => Option.isNone_iff_eq_none.mp (List.all_eq_true.mp hall r hr)⟩
  · exact iff_of_true rfl (Or.inr (Or.inr (Or.inl h3)))
  · refine iff_of_true rfl (Or.inr (Or.inr (Or.inr ?_)))
    exact fun r hr => (Nat.beq_eq_true_eq (countSome r) 1).mp (List.all_eq_true.mp h4 r hr)
  · refine iff_of_false (by simp) ?_
    intro hcase
    rcases hcase with hA | hB | hC | hD
    · rcases hA with ⟨r, hr, hall⟩
      exact absurd (List.any_eq_true.mpr ⟨r, hr, List.all_eq_true.mpr
        (fun c hc => Option.isNone_iff_eq_none.mpr (hall c hc))⟩) h1
    · rcases hB with ⟨j, hj, hall⟩
      exact absurd (List.any_eq_true.mpr ⟨j, List.mem_range.mpr hj,
        List.all_eq_true.mpr
          (fun r hr => Option.isNone_iff_eq_none.mpr (hall r hr))⟩) h2
    · exact absurd hC h3
    · exact absurd (List.all_eq_true.mpr
        (fun r hr => (Nat.beq_eq_true_eq (countSome r) 1).mpr (hD r hr))) h4

/-- Running example: three examples, two annotators, two classes; annotator 2
skipped the last example. A structurally valid input on which the whole pipeline
computes. -/
def exampleLM : LabelMatrix := ⟨2, [[some 0, some 0], [some 1, some 1], [some 0, none]]⟩

/-- Predicted probabilities for `exampleLM`. -/
def examplePP : List (List ℚ) := [[9/10, 1/10], [2/10, 8/10], [7/10, 3/10]]

/-- A deterministic stand-in for the injected random tie-break source. -/
def randHead : ℕ → List ℕ → ℕ := fun _ l => l.headD 0

/-- The spec's literal 2-2 tie example: labels [0,0,1,1], pred_probs [0.1,0.8]. -/
def tieLM : LabelMatrix := ⟨4, [[some 0, some 0, some 1, some 1]]⟩

/-- Predicted probabilities for `tieLM`. -/
def tiePP : List (List ℚ) := [[1/10, 8/10]]

/-- C6: for every label matrix, with or without predicted probabilities, any label
returned by `get_majority_vote_label` for an example is one of the non-missing
labels some annotator gave for that example — the resolver never invents an
unobserved class. -/
theorem claim_C6_majority_vote_never_invents (lm : LabelMatrix)
    (pp : Option (List (List ℚ))) (rand : ℕ → List ℕ → ℕ)
    (hrand : ∀ i cs, cs ≠ [] → rand i cs ∈ cs) (out : List ℕ)
    (hout : getMajorityVoteLabel lm pp rand = some out) (i : ℕ)
    (hi : i < lm.rows.length) :
    out.getD i 0 ∈ rowLabels (lm.rows.getD i []) := by
  simp only [getMajorityVoteLabel] at hout
  rcases mapOpt_eq_some hout with ⟨_, hget⟩
  have hg := hget i (by simpa using hi)
  rw [getD_range (by simpa using hi)] at hg
  exact resolveExample_mem hrand hg

/-- Witness for C6: on the running example the resolver returns [0, 1, 0], and the
label of example 0 indeed appears among its given labels. -/
theorem claim_C6_witness :
    getMajorityVoteLabel exampleLM (some examplePP) randHead = some [0, 1, 0] ∧
    [0, 1, 0].getD 0 0 ∈ rowLabels (exampleLM.rows.getD 0 []) := by
  refine ⟨by decide, ?_⟩
  exact claim_C6_majority_vote_never_invents exampleLM (some examplePP) randHead
    (fun i cs h => by
      cases cs with
      | nil => exact absurd rfl h
      | cons a t => exact List.mem_cons_self a t)
    [0, 1, 0] (by decide) 0 (by decide)

/-- C4: when an example's non-missing labels have multiple tied modes and one tied
candidate class has strictly the highest predicted probability for that example,
`get_majority_vote_label` assigns that class. -/
theorem claim_C4_pred_prob_tiebreak (lm : LabelMatrix) (pp : List (List ℚ))
    (rand : ℕ → List ℕ → ℕ) (out : List ℕ) (i c : ℕ)
    (hout : getMajorityVoteLabel lm (some pp) rand = some out)
    (hi : i < lm.rows.length)
    (hmodes : (modes (lm.rows.getD i [])).length ≠ 1)
    (hc : c ∈ modes (lm.rows.getD i []))
    (hbound : ∀ x ∈ modes (lm.rows.getD i []), x < (pp.getD i []).length)
    (hstrict : ∀ x ∈ modes (lm.rows.getD i []), x ≠ c →
      (pp.getD i []).getD x 0 < (pp.getD i []).getD c 0) :
    out.getD i 0 = c := by
  simp only [getMajorityVoteLabel] at hout
  rcases mapOpt_eq_some hout with ⟨_, hget⟩
  have hg := hget i (by simpa using hi)
  rw [getD_range (by simpa using hi)] at hg
  have hres := (@resolveExample_stage1 (classFreqList lm) (stage3Agreements lm)
    rand i (lm.rows.getD i []) (pp.getD i []) c
    hmodes hc hbound hstrict).symm.trans hg
  exact (Option.some_inj.mp hres).symm

/-- Witness for C4: the spec's literal example — labels [0,0,1,1] with predicted
probabilities [0.1, 0.8] resolves to consensus label 1. -/
theorem claim_C4_witness :
    getMajorityVoteLabel tieLM (some tiePP) randHead = some [1] ∧
    [1].getD 0 0 = 1 := by
  have hout : getMajorityVoteLabel tieLM (some tiePP) randHead = some [1] := by
    norm_num +decide [getMajorityVoteLabel, mapOpt, resolveExample, resolveTied, step,
      afterStage1, stageSelect, keptOf, modes, rowLabels, sortedDistinct, sortNat,
      insertNat, tieLM, tiePP, randHead, List.range_succ, List.mapM_cons,
      List.mapM.loop, List.filterMap_cons, List.filter_cons, List.count_cons,
      List.count_nil, List.zip_cons_cons,
      List.dedup_cons_of_mem, List.dedup_cons_of_not_mem]
  refine ⟨hout, ?_⟩
  exact claim_C4_pred_prob_tiebreak tieLM tiePP randHead [1] 0 1 hout
    (by decide) (by decide) (by decide) (by decide)
    (by
      norm_num +decide [modes, rowLabels, sortedDistinct, sortNat, insertNat, tieLM,
        tiePP, List.filterMap_cons, List.filter_cons, List.count_cons, List.count_nil,
        List.dedup_cons_of_mem, List.dedup_cons_of_not_mem])

/-- A structurally valid matrix whose present classes are {2, 3}: class ids do not
match positions of the positional `value_counts` layout. -/
def cexM : LabelMatrix := ⟨2, [[some 2, some 3], [some 3, some 3]]⟩

/-- A matrix with a 1-1 tie on example 0 that the global class frequencies
(3 zeros against 5 ones) resolve; classes {0, 1} are downward closed. -/
def c5M : LabelMatrix :=
  ⟨2, [[some 0, some 1], [some 1, some 1], [some 0, some 0], [some 1, some 1]]⟩

/-- C5 counterexample: `cexM` is valid, example 0 is tied between classes 2 and 3,
the tie survives the (absent) predicted-probability stage, and class 3 has strictly
the highest global count — yet the call returns nothing at all: the positional
lookup `class_frequencies[label_mode]` falls out of bounds (IndexError) because
class id 3 exceeds the length-2 positional frequency array over {2, 3}. -/
theorem claim_C5_counterexample :
    validateError cexM = none ∧
    (modes (cexM.rows.getD 0 [])).length ≠ 1 ∧
    afterStage1 none (modes (cexM.rows.getD 0 [])) =
      some (Sum.inr (modes (cexM.rows.getD 0 []))) ∧
    3 ∈ modes (cexM.rows.getD 0 []) ∧
    (∀ x ∈ modes (cexM.rows.getD 0 []), x ≠ 3 →
      (allLabels cexM).count x < (allLabels cexM).count 3) ∧
    getMajorityVoteLabel cexM none randHead = none :=
  ⟨by decide, by decide, by decide, by decide, by decide, by decide⟩

/-- C5 (amended): provided the set of class ids present in the matrix is downward
closed (so that positional indexing of the global frequency array coincides with
class-id indexing), any example whose tie survives the predicted-probability stage
and among whose remaining candidates one class has strictly the highest total
count over the entire label matrix is assigned that class. -/
theorem claim_C5_global_freq_tiebreak (lm : LabelMatrix) (pp : Option (List (List ℚ)))
    (rand : ℕ → List ℕ → ℕ) (out : List ℕ) (i c : ℕ) (cs : List ℕ)
    (hdc : ∀ x ∈ allLabels lm, ∀ y, y < x → y ∈ allLabels lm)
    (hout : getMajorityVoteLabel lm pp rand = some out)
    (hi : i < lm.rows.length)
    (hmodes : (modes (lm.rows.getD i [])).length ≠ 1)
    (hsurvive : afterStage1 (pp.map fun p => p.getD i [])
      (modes (lm.rows.getD i [])) = some (Sum.inr cs))
    (hc : c ∈ cs)
    (hstrict : ∀ x ∈ cs, x ≠ c →
      (allLabels lm).count x < (allLabels lm).count c) :
    out.getD i 0 = c := by
  have hsubl := afterStage1_inr_sublist hsurvive
  have hnodup : cs.Nodup := hsubl.nodup (modes_nodup _)
  have hsubset : ∀ x ∈ cs, x ∈ allLabels lm := fun x hx =>
    rowLabels_getD_subset_allLabels hi x
      (mem_modes_mem_rowLabels (hsubl.subset hx))
  have hstage2 := afterStage2_eq_inl_of_strict hdc hnodup hsubset hc hstrict
  simp only [getMajorityVoteLabel] at hout
  rcases mapOpt_eq_some hout with ⟨_, hget⟩
  have hg := hget i (by simpa using hi)
  rw [getD_range (by simpa using hi)] at hg
  have hres : resolveExample (classFreqList lm) (stage3Agreements lm) rand i
      (lm.rows.getD i []) (pp.map fun p => p.getD i []) = some c := by
    simp only [resolveExample, if_neg hmodes]
    unfold resolveTied
    rw [hsurvive]
    simp only [step]
    rw [hstage2]
  exact (Option.some_inj.mp (hres.symm.trans hg)).symm

/-- Witness for the amended C5 at `c5M`: example 0's 1-1 tie goes to class 1, whose
global count (5) strictly exceeds class 0's (3). -/
theorem claim_C5_witness :
    getMajorityVoteLabel c5M none randHead = some [1, 1, 0, 1] ∧
    [1, 1, 0, 1].getD 0 0 = 1 := by
  have hout : getMajorityVoteLabel c5M none randHead = some [1, 1, 0, 1] := by decide
  refine ⟨hout, ?_⟩
  exact claim_C5_global_freq_tiebreak c5M none randHead [1, 1, 0, 1] 0 1
    (modes (c5M.rows.getD 0 [])) (by decide) hout (by decide) (by decide) (by decide)
    (by decide) (by decide)

/-- C7 counterexample: `cexM` is valid, but under the "agreement" method the
posterior row of example 0 is laid out over the positionally sorted present
classes {2, 3}: its entry at position 0 is 1/2 (the share of class 2), while the
claim's value for class 0 — its vote count divided by the annotation count — is 0. -/
theorem claim_C7_counterexample :
    validateError cexM = none ∧
    ((agreementPost cexM).getD 0 []).getD 0 0 = 1 / 2 ∧
    ((rowLabels (cexM.rows.getD 0 [])).count 0 : ℚ) /
      (countSome (cexM.rows.getD 0 []) : ℚ) = 0 ∧
    ((agreementPost cexM).getD 0 []).getD 0 0 ≠
      ((rowLabels (cexM.rows.getD 0 [])).count 0 : ℚ) /
        (countSome (cexM.rows.getD 0 []) : ℚ) := by
  have h1 : ((agreementPost cexM).getD 0 []).getD 0 0 = 1 / 2 := by
    norm_num +decide [agreementPost, presentClasses, allLabels, sortedDistinct,
      sortNat, insertNat, rowLabels, numAnnotationsOf, countSome, cexM,
      List.filterMap_cons, List.count_cons, List.count_nil,
      List.dedup_cons_of_mem, List.dedup_cons_of_not_mem]
  have h2 : ((rowLabels (cexM.rows.getD 0 [])).count 0 : ℚ) /
      (countSome (cexM.rows.getD 0 []) : ℚ) = 0 := by
    norm_num +decide [rowLabels, countSome, cexM, List.filterMap_cons,
      List.count_cons, List.count_nil]
  refine ⟨by decide, h1, h2, ?_⟩
  rw [h1, h2]
  norm_num

/-- C7 (amended): under the "agreement" method, the posterior row of an example is
indexed positionally by the ascending distinct present classes: entry j equals the
count of the j-th smallest present class among the example's labels divided by its
annotation count (so entry c is the share of class c exactly when the present
classes are downward closed), and every row of an example with at least one label
sums to 1. -/
theorem claim_C7_agreement_post_rows (lm : LabelMatrix) (i : ℕ)
    (hi : i < lm.rows.length)
    (hrow : rowLabels (lm.rows.getD i []) ≠ []) :
    (∀ j, j < (presentClasses lm).length →
      ((agreementPost lm).getD i []).getD j 0 =
        ((rowLabels (lm.rows.getD i [])).count ((presentClasses lm).getD j 0) : ℚ) /
          (countSome (lm.rows.getD i []) : ℚ)) ∧
    ((agreementPost lm).getD i []).sum = 1 := by
  rw [agreementPost_getD hi]
  constructor
  · intro j hj
    rw [getD_of_lt (by simpa using hj), List.getElem_map, getD_of_lt hj]
  · have hsubrow : ∀ x ∈ rowLabels (lm.rows.getD i []), x ∈ presentClasses lm :=
      fun x hx => mem_sortedDistinct_iff.mpr (rowLabels_getD_subset_allLabels hi x hx)
    have hn : ((rowLabels (lm.rows.getD i [])).length : ℚ) ≠ 0 :=
      Nat.cast_ne_zero.mpr fun h => hrow (List.length_eq_zero.mp h)
    have hnd : (presentClasses lm).Nodup := sortedDistinct_nodup (allLabels lm)
    rw [sum_map_div, sum_map_natCast, sum_count_over_superset hnd hsubrow]
    exact div_self hn

/-- Witness for the amended C7 at the running example: example 0 has labels and its
agreement-posterior row sums to 1. -/
theorem claim_C7_witness :
    rowLabels (exampleLM.rows.getD 0 []) ≠ [] ∧
    ((agreementPost exampleLM).getD 0 []).sum = 1 :=
  ⟨by decide, (claim_C7_agreement_post_rows exampleLM 0 (by decide) (by decide)).2⟩

/-- C9: when every multiply-annotated example's consensus label equals the globally
most frequent class, `most_likely_class_error` is 0 and the weight computation,
which divides by it with no zero guard, takes the error branch of the total
embedding. -/
theorem claim_C9_zero_floor_error_guard (lm : LabelMatrix) (pp : List (List ℚ))
    (consensus : List ℕ) (sqrtFn : ℚ → ℚ)
    (hne : multiSubset lm consensus ≠ [])
    (hall : ∀ cl ∈ multiSubset lm consensus,
      cl = mostFrequentClass (multiSubset lm consensus) (numClasses pp)) :
    mostLikelyClassError lm consensus (numClasses pp) = 0 ∧
    crowdlabWeights lm pp consensus sqrtFn = none := by
  have hmlce : mostLikelyClassError lm consensus (numClasses pp) = 0 := by
    simp only [mostLikelyClassError]
    have hmap : (multiSubset lm consensus).map
        (fun cl => if cl ≠ mostFrequentClass (multiSubset lm consensus)
          (numClasses pp) then (1 : ℚ) else 0) =
        (multiSubset lm consensus).map fun _ => (0 : ℚ) := by
      apply List.map_congr_left
      intro cl hcl
      simp [hall cl hcl]
    rw [hmap]
    simp [meanQ]
  refine ⟨hmlce, ?_⟩
  simp only [crowdlabWeights]
  rw [if_pos hmlce]

/-- Valid input on which the C9 guard fires: both examples are doubly annotated
with class 0 and the consensus equals the most frequent class everywhere. -/
def c9M : LabelMatrix := ⟨2, [[some 0, some 0], [some 0, some 0]]⟩

/-- Predicted probabilities for `c9M`. -/
def c9PP : List (List ℚ) := [[3/5, 2/5], [3/5, 2/5]]

/-- Witness for C9 at `c9M`. -/
theorem claim_C9_witness :
    multiSubset c9M [0, 0] ≠ [] ∧
    (∀ cl ∈ multiSubset c9M [0, 0],
      cl = mostFrequentClass (multiSubset c9M [0, 0]) (numClasses c9PP)) ∧
    mostLikelyClassError c9M [0, 0] (numClasses c9PP) = 0 ∧
    crowdlabWeights c9M c9PP [0, 0] id = none := by
  have h := claim_C9_zero_floor_error_guard c9M c9PP [0, 0] id (by decide) (by decide)
  exact ⟨by decide, by decide, h.1, h.2⟩

/-- The C8 counterexample pair: matrices identical except in annotator 0's label
for example 1, with the posterior, consensus and weights held fixed. -/
def c8A : LabelMatrix := ⟨2, [[some 0, some 0], [some 1, some 0]]⟩

/-- Second matrix of the C8 counterexample pair. -/
def c8B : LabelMatrix := ⟨2, [[some 0, some 0], [some 0, some 0]]⟩

/-- The fixed posterior rows of the C8 counterexample. -/
def c8PP : List (List ℚ) := [[9/10, 1/10], [1/10, 9/10]]

/-- C8 counterexample: moving annotator 0 from labels [0,1] to [0,0] — with the
other annotator's entries, the posterior, the consensus [0,0] and the weights all
held fixed — raises their agreement with the consensus from 1/2 to 1 yet lowers
their `_get_annotator_quality` score from 19/22 to 6/11: the quality also averages
in the annotator's own label-quality term, which drops more than the agreement
gains. -/
theorem claim_C8_counterexample :
    c8A.rows.map (fun r => r.getD 1 none) = c8B.rows.map (fun r => r.getD 1 none) ∧
    (agreementWithConsensusAll c8A [0, 0]).getD 0 0 = 1 / 2 ∧
    (agreementWithConsensusAll c8B [0, 0]).getD 0 0 = 1 ∧
    (annotatorQuality c8A c8PP [0, 0] 10 [1/2, 1/2] .crowdlab).getD 0 0 = 19 / 22 ∧
    (annotatorQuality c8B c8PP [0, 0] 10 [1/2, 1/2] .crowdlab).getD 0 0 = 6 / 11 ∧
    ((agreementWithConsensusAll c8A [0, 0]).getD 0 0 <
      (agreementWithConsensusAll c8B [0, 0]).getD 0 0) ∧
    ((annotatorQuality c8B c8PP [0, 0] 10 [1/2, 1/2] .crowdlab).getD 0 0 <
      (annotatorQuality c8A c8PP [0, 0] 10 [1/2, 1/2] .crowdlab).getD 0 0) := by
  have ha1 : (agreementWithConsensusAll c8A [0, 0]).getD 0 0 = 1 / 2 := by
    norm_num +decide [agreementWithConsensusAll, meanQ, rowLabels, c8A,
      List.range_succ, List.filterMap_cons, List.zipWith_cons_cons]
  have ha2 : (agreementWithConsensusAll c8B [0, 0]).getD 0 0 = 1 := by
    norm_num +decide [agreementWithConsensusAll, meanQ, rowLabels, c8B,
      List.range_succ, List.filterMap_cons, List.zipWith_cons_cons]
  have hq1 : (annotatorQuality c8A c8PP [0, 0] 10 [1/2, 1/2] .crowdlab).getD 0 0 =
      19 / 22 := by
    norm_num +decide [annotatorQuality, crowdlabCombine, lqScore, meanQ,
      numAnnotationsOf, countSome, rowLabels, c8A, c8PP, List.range_succ,
      List.filterMap_cons, List.zipWith_cons_cons, List.count_cons, List.count_nil]
  have hq2 : (annotatorQuality c8B c8PP [0, 0] 10 [1/2, 1/2] .crowdlab).getD 0 0 =
      6 / 11 := by
    norm_num +decide [annotatorQuality, crowdlabCombine, lqScore, meanQ,
      numAnnotationsOf, countSome, rowLabels, c8B, c8PP, List.range_succ,
      List.filterMap_cons, List.zipWith_cons_cons, List.count_cons, List.count_nil]
  refine ⟨by decide, ha1, ha2, hq1, hq2, ?_, ?_⟩
  · rw [ha1, ha2]; norm_num
  · rw [hq1, hq2]; norm_num

/-- C8 (amended): the crowdlab annotator quality is monotonically non-decreasing in
the annotator's agreement-with-consensus term once the annotator's own mean
label-quality term is also held fixed and the combination weight `w` lies in
[0, 1] — the `crowdlabCombine` form `w * lqs + (1 - w) * agreement` used by
`_get_annotator_quality`. -/
theorem claim_C8_combine_monotone (w lqs a1 a2 : ℚ) (hw0 : 0 ≤ w) (hw1 : w ≤ 1)
    (ha : a1 ≤ a2) : crowdlabCombine w lqs a1 ≤ crowdlabCombine w lqs a2 := by
  unfold crowdlabCombine
  have h1 : (0 : ℚ) ≤ 1 - w := by linarith
  have h2 := mul_le_mul_of_nonneg_left ha h1
  linarith

/-- Witness for the amended C8. -/
theorem claim_C8_witness :
    (0 : ℚ) ≤ 1 / 2 ∧ (1 / 2 : ℚ) ≤ 1 ∧ (0 : ℚ) ≤ 1 ∧
    crowdlabCombine (1 / 2) (3 / 4) 0 ≤ crowdlabCombine (1 / 2) (3 / 4) 1 :=
  ⟨by norm_num, by norm_num, by norm_num,
    claim_C8_combine_monotone (1 / 2) (3 / 4) 0 1 (by norm_num) (by norm_num)
      (by norm_num)⟩

theorem rowLexLe_total (a b : AnnotatorRow) :
    rowLexLe a b = true ∨ rowLexLe b a = true := by
  unfold rowLexLe
  rcases lt_trichotomy a.quality b.quality with h | h | h
  · left; simp [h]
  · rcases le_total a.agreementC b.agreementC with h2 | h2
    · left; simp [h, h2]
    · right; simp [h.symm, h2]
  · right; simp [h]

theorem rowLexLe_trans {a b c : AnnotatorRow} (h1 : rowLexLe a b = true)
    (h2 : rowLexLe b c = true) : rowLexLe a c = true := by
  unfold rowLexLe at h1 h2 ⊢
  simp only [Bool.or_eq_true, Bool.and_eq_true, decide_eq_true_eq] at h1 h2 ⊢
  rcases h1 with h1 | ⟨h1e, h1a⟩ <;> rcases h2 with h2 | ⟨h2e, h2a⟩
  · exact Or.inl (lt_trans h1 h2)
  · exact Or.inl (h2e ▸ h1)
  · exact Or.inl (h1e ▸ h2)
  · exact Or.inr ⟨h1e.trans h2e, le_trans h1a h2a⟩

theorem insertRow_perm (a : AnnotatorRow) :
    ∀ l : List AnnotatorRow, List.Perm (insertRow a l) (a :: l) := by
  intro l
  induction l with
  | nil => simp [insertRow]
  | cons b t ih =>
    unfold insertRow
    by_cases hab : rowLexLe a b
    · simp [hab]
    · simp only [hab, if_neg, not_false_iff]
      exact (List.Perm.cons b ih).trans (List.Perm.swap a b t)

theorem insertRow_pairwise {a : AnnotatorRow} :
    ∀ {l : List AnnotatorRow}, l.Pairwise (fun x y => rowLexLe x y = true) →
      (insertRow a l).Pairwise (fun x y => rowLexLe x y = true) := by
  intro l
  induction l with
  | nil => intro _; simp [insertRow]
  | cons b t ih =>
    intro hp
    unfold insertRow
    by_cases hab : rowLexLe a b = true
    · rw [if_pos hab]
      refine List.Pairwise.cons ?_ hp
      intro x hx
      rcases List.mem_cons.mp hx with h1 | h2
      · exact h1 ▸ hab
      · exact rowLexLe_trans hab (List.rel_of_pairwise_cons hp h2)
    · rw [if_neg hab]
      have hba : rowLexLe b a = true := by
        rcases rowLexLe_total a b with h | h
        · exact absurd h hab
        · exact h
      rcases hp with - | ⟨hb, ht⟩
      refine List.Pairwise.cons ?_ (ih ht)
      intro x hx
      rcases List.mem_cons.mp ((insertRow_perm a t).mem_iff.mp hx) with h1 | h2
      · exact h1 ▸ hba
      · exact hb x h2

theorem sortRows_pairwise :
    ∀ l : List AnnotatorRow,
      (sortRows l).Pairwise (fun x y => rowLexLe x y = true) := by
  intro l
  induction l with
  | nil => simp [sortRows]
  | cons a t ih => exact insertRow_pairwise ih

/-- C10: the rows of the annotator stats table are sorted in non-decreasing
lexicographic order of (annotator quality, agreement with consensus). -/
theorem claim_C10_annotator_stats_sorted (lm : LabelMatrix) (pp : List (List ℚ))
    (consensus : List ℕ) (mw : ℚ) (aw : List ℚ) (qs : List ℚ) (qm : QualityMethod) :
    (annotatorStats lm pp consensus mw aw qs qm).Pairwise
      (fun r1 r2 => r1.quality < r2.quality ∨
        (r1.quality = r2.quality ∧ r1.agreementC ≤ r2.agreementC)) := by
  unfold annotatorStats
  refine (sortRows_pairwise _).imp ?_
  intro a b h
  simpa only [rowLexLe, Bool.or_eq_true, Bool.and_eq_true, decide_eq_true_eq] using h

theorem snd_mem_of_mem_zipWith {l1 : List ℚ} {l2 : List ℕ} {p : ℚ × ℕ} :
    p ∈ List.zipWith (fun a n => (a, n)) l1 l2 → p.2 ∈ l2 := by
  induction l1 generalizing l2 with
  | nil => intro h; simp at h
  | cons a t ih =>
    intro h
    cases l2 with
    | nil => simp at h
    | cons n ns =>
      rcases List.mem_cons.mp (by simpa using h) with h1 | h2
      · rw [h1]; exact List.mem_cons_self n ns
      · exact List.mem_cons_of_mem n (ih h2)

theorem filterMap_mask_congr {l : List (ℚ × ℕ)} (h : ∀ p ∈ l, 1 ≤ p.2) :
    (l.filterMap fun p => if p.2 ≠ 1 then some p.1 else none) =
      l.filterMap fun p => if p.2 > 1 then some p.1 else none := by
  induction l with
  | nil => rfl
  | cons a t ih =>
    have ha := h a (List.mem_cons_self a t)
    have iht := ih fun p hp => h p (List.mem_cons_of_mem a hp)
    simp only [List.filterMap_cons]
    by_cases h2 : a.2 > 1
    · rw [if_pos (by omega : a.2 ≠ 1), if_pos h2, iht]
    · rw [if_neg (by omega : ¬a.2 ≠ 1), if_neg h2, iht]

/-- The spec's likelihood L: the mean annotator agreement restricted to examples
with more than one annotation. -/
def specLikelihood (lm : LabelMatrix) (consensus : List ℕ) : ℚ :=
  meanQ ((List.zipWith (fun a n => (a, n))
      (annotatorAgreementWithConsensus lm consensus) (numAnnotationsOf lm)).filterMap
    fun p => if p.2 > 1 then some p.1 else none)

/-- The spec's formula for one crowdlab posterior entry: the weighted average of
the external predicted probability of class c together with, for every annotator
who labeled the example, L when their label is c and (1 - L)/(K - 1) otherwise —
weighted by the model weight and the contributing annotators' adjusted weights. -/
def specPosteriorEntry (lm : LabelMatrix) (pp : List (List ℚ)) (consensus : List ℕ)
    (mw : ℚ) (adj : List ℚ) (i c : ℕ) : ℚ :=
  let pairs := labeledPairs (lm.rows.getD i []) adj
  let lh := specLikelihood lm consensus
  let k := numClasses pp
  (mw * (pp.getD i []).getD c 0 +
      (pairs.map fun p =>
        p.2 * (if p.1 = c then lh else (1 - lh) / ((k : ℚ) - 1))).sum) /
    (mw + (pairs.map Prod.snd).sum)

theorem zipWith_mul_map {α : Type} (f g : α → ℚ) (l : List α) :
    List.zipWith (fun v w => v * w) (l.map f) (l.map g) =
      l.map fun p => f p * g p := by
  induction l with
  | nil => rfl
  | cons a t ih => simp [ih]

theorem npAverage_cons (v w : ℚ) (vals ws : List ℚ) :
    npAverage (v :: vals) (w :: ws) =
      (v * w + (List.zipWith (fun v w => v * w) vals ws).sum) / (w + ws.sum) := by
  simp [npAverage]

theorem crowdlabPostRow_getD {k : ℕ} {lh mw : ℚ} {adj : List ℚ} {r : List Cell}
    {ppr : List ℚ} {c : ℕ} (hc : c < k) :
    (crowdlabPostRow k lh mw adj r ppr).getD c 0 =
      npAverage
        (ppr.getD c 0 :: (labeledPairs r adj).map fun p =>
          if p.1 = c then lh else (1 - lh) / ((k : ℚ) - 1))
        (mw :: (labeledPairs r adj).map Prod.snd) := by
  unfold crowdlabPostRow
  have h1 : c < ((List.range k).map fun c =>
      npAverage
        (ppr.getD c 0 :: (labeledPairs r adj).map fun p =>
          if p.1 = c then lh else (1 - lh) / ((k : ℚ) - 1))
        (mw :: (labeledPairs r adj).map Prod.snd)).length := by simpa using hc
  rw [getD_of_lt h1, List.getElem_map, List.getElem_range]

theorem likelihood_eq_specLikelihood {lm : LabelMatrix} {consensus : List ℕ}
    (hval : ∀ r ∈ lm.rows, rowLabels r ≠ []) :
    likelihood lm consensus = specLikelihood lm consensus := by
  unfold likelihood specLikelihood
  congr 1
  apply filterMap_mask_congr
  intro p hp
  have h2 := snd_mem_of_mem_zipWith hp
  rcases List.mem_map.mp (by simpa [numAnnotationsOf] using h2) with ⟨r, hr, hcount⟩
  have := hval r hr
  rw [← hcount]
  unfold countSome
  exact Nat.one_le_iff_ne_zero.mpr fun h0 => this (List.length_eq_zero.mp h0)

/-- C1: under the crowdlab quality method, every posterior entry [i, c] equals the
spec's weighted average: the external predicted probability of class c together
with one vote term per contributing annotator (L on agreement with c, otherwise
(1 - L)/(K - 1)), weighted by the model weight and the contributing annotators'
adjusted weights, with L the mean agreement over examples with more than one
annotation. -/
theorem claim_C1_crowdlab_posterior (lm : LabelMatrix) (pp : List (List ℚ))
    (consensus : List ℕ) (sqrtFn : ℚ → ℚ) (P : List (List ℚ)) (mw : ℚ)
    (adj : List ℚ) (i c : ℕ)
    (hval : ∀ r ∈ lm.rows, rowLabels r ≠ [])
    (hP : crowdlabPost lm pp consensus sqrtFn = some (P, mw, adj))
    (hi : i < lm.rows.length) (hpl : pp.length = lm.rows.length)
    (hc : c < numClasses pp) :
    (P.getD i []).getD c 0 = specPosteriorEntry lm pp consensus mw adj i c := by
  rcases hw : crowdlabWeights lm pp consensus sqrtFn with - | w
  · rw [crowdlabPost, hw] at hP
    exact absurd hP (by simp)
  · rw [crowdlabPost, hw] at hP
    rw [Option.map_some'] at hP
    have h1 := Option.some_inj.mp hP
    have hmw : mw = w.1 := (congrArg (fun x => x.2.1) h1).symm
    have hadj : adj = w.2 := (congrArg (fun x => x.2.2) h1).symm
    have hPeq : P = List.zipWith
        (crowdlabPostRow (numClasses pp) (likelihood lm consensus) w.1 w.2)
        lm.rows pp := (congrArg Prod.fst h1).symm
    subst hmw hadj
    have hzl : i < (List.zipWith
        (crowdlabPostRow (numClasses pp) (likelihood lm consensus) w.1 w.2)
        lm.rows pp).length := by
      rw [List.length_zipWith, hpl, min_self]
      exact hi
    rw [hPeq, getD_of_lt hzl, List.getElem_zipWith, crowdlabPostRow_getD hc,
      npAverage_cons, zipWith_mul_map]
    unfold specPosteriorEntry
    rw [← likelihood_eq_specLikelihood hval, getD_of_lt hi,
      getD_of_lt (show i < pp.length from hpl ▸ hi)]
    rw [List.map_congr_left fun (p : ℕ × ℚ) _ => mul_comm
      (if p.1 = c then likelihood lm consensus
        else (1 - likelihood lm consensus) / ((numClasses pp : ℚ) - 1)) p.2,
      mul_comm ((pp[i]).getD c 0) w.1]

/-- Witness for C1 at the running example: the crowdlab pipeline computes, and the
first posterior entry equals the spec's weighted-average formula. -/
theorem claim_C1_witness :
    crowdlabPost exampleLM examplePP [0, 1, 0] id =
      some ([[21/22, 1/22], [1/11, 10/11], [13/16, 3/16]], 5/3, [1, 1]) ∧
    (([[21/22, 1/22], [1/11, 10/11], [13/16, 3/16]] :
        List (List ℚ)).getD 0 []).getD 0 0 =
      specPosteriorEntry exampleLM examplePP [0, 1, 0] (5/3) [1, 1] 0 0 := by
  have hP : crowdlabPost exampleLM examplePP [0, 1, 0] id =
      some ([[21/22, 1/22], [1/11, 10/11], [13/16, 3/16]], 5/3, [1, 1]) := by
    norm_num +decide [crowdlabPost, crowdlabWeights, mostLikelyClassError,
      mostFrequentClass, bincountK, firstArgmax, listMax, multiSubset, ppMultiSubset,
      imputedAgreements, singleAnnotatorAgreement, likelihood,
      annotatorAgreementWithConsensus, rowAgreement, meanQ, numAnnotationsOf,
      countSome, rowLabels, numClasses, crowdlabPostRow, npAverage, labeledPairs,
      exampleLM, examplePP, List.range_succ, List.filterMap_cons,
      List.zipWith_cons_cons, List.count_cons, List.count_nil, List.findIdx_cons,
      List.eraseIdx_cons_zero, List.eraseIdx_cons_succ]
  exact ⟨hP, claim_C1_crowdlab_posterior exampleLM examplePP [0, 1, 0] id
    [[21/22, 1/22], [1/11, 10/11], [13/16, 3/16]] (5/3) [1, 1] 0 0
    (by decide) hP (by decide) (by decide) (by decide)⟩

theorem maxPositions_eq_single {row : List ℚ} {j : ℕ} {vj : ℚ}
    (hj : row.get? j = some vj)
    (hstrict : ∀ k x, row.get? k = some x → k ≠ j → x < vj) :
    maxPositions row = [j] := by
  have hjl : j < row.length := by
    rcases List.get?_eq_some.mp hj with ⟨h, _⟩; exact h
  cases row with
  | nil => simp at hj
  | cons v vs =>
    have hmx : List.foldr max v vs = vj := by
      rcases List.mem_iff_get?.mp (foldr_max_mem vs v) with ⟨k, hk⟩
      have hle : vj ≤ List.foldr max v vs := le_foldr_max vs v vj (List.get?_mem hj)
      by_cases hkj : k = j
      · rw [hkj] at hk
        rw [hk] at hj
        exact Option.some_inj.mp hj
      · exact absurd (hstrict k _ hk hkj) (not_lt.mpr hle)
    show keptOf (List.foldr max v vs) (List.range (v :: vs).length) (v :: vs) = [j]
    rw [hmx, keptOf_eq_single (List.range (v :: vs).length) (v :: vs) j (by simp) hj
      fun k x hk hkj => ne_of_lt (hstrict k x hk hkj)]
    rw [getD_range hjl]

theorem maxPositions_singleton_imp {row : List ℚ} {j : ℕ}
    (h : maxPositions row = [j]) :
    ∃ vj, row.get? j = some vj ∧
      ∀ k x, row.get? k = some x → k ≠ j → x < vj := by
  cases row with
  | nil => simp [maxPositions] at h
  | cons v vs =>
    have h2 : keptOf (List.foldr max v vs) (List.range (v :: vs).length)
        (v :: vs) = [j] := h
    obtain ⟨j2, hj2mx, hj2c, hother⟩ :=
      keptOf_singleton_imp (List.range (v :: vs).length) (v :: vs) j (by simp) h2
    have hj2lt : j2 < (v :: vs).length := by
      rcases List.get?_eq_some.mp hj2mx with ⟨hl, _⟩; exact hl
    have hj2j : j2 = j := by
      rw [List.get?_eq_getElem?, List.getElem?_range (by simpa using hj2lt)] at hj2c
      exact Option.some_inj.mp hj2c
    subst hj2j
    refine ⟨List.foldr max v vs, hj2mx, ?_⟩
    intro k x hk hkj
    exact lt_of_le_of_ne (le_foldr_max vs v x (List.get?_mem hk)) (hother k x hk hkj)

theorem bestQualityLabel_getD {post : List (List ℚ)} {mv : List ℕ} {i : ℕ}
    (hi : i < mv.length) :
    (bestQualityLabel post mv).getD i 0 =
      (match maxPositions (post.getD i []) with
        | [j] => j
        | _ => mv.getD i 0) := by
  unfold bestQualityLabel
  have h1 : i < ((List.range mv.length).map fun i =>
      match maxPositions (post.getD i []) with
      | [j] => j
      | _ => mv.getD i 0).length := by simpa using hi
  rw [getD_of_lt h1, List.getElem_map, List.getElem_range]

/-- C2: when the consensus method "best_quality" is requested, the orchestrator's
returned labels are, per example, the argmax of the majority-vote posterior row
when that argmax is unique and the majority-vote label otherwise, and the returned
agreement, posterior and quality are a fresh full pass of the consensus-stats
computation on this new label vector, weights recomputed from scratch. -/
theorem claim_C2_best_quality (lm : LabelMatrix) (pp : List (List ℚ))
    (qm : QualityMethod) (sqrtFn : ℚ → ℚ) (rand : ℕ → List ℕ → ℕ)
    (mv : List ℕ) (s : ConsensusStats)
    (hvalid : validateError lm = none)
    (hmv : getMajorityVoteLabel lm (some pp) rand = some mv)
    (hs : getConsensusStats lm pp mv qm sqrtFn = some s) :
    getLabelQualityMA lm pp ConsensusMethod.bestQuality qm sqrtFn rand =
      (getConsensusStats lm pp (bestQualityLabel s.post mv) qm sqrtFn).map
        (fun s2 => (bestQualityLabel s.post mv, s2)) ∧
    (∀ i, i < mv.length → ∀ j vj, (s.post.getD i []).get? j = some vj →
      (∀ k x, (s.post.getD i []).get? k = some x → k ≠ j → x < vj) →
      (bestQualityLabel s.post mv).getD i 0 = j) ∧
    (∀ i, i < mv.length →
      (¬∃ j vj, (s.post.getD i []).get? j = some vj ∧
        ∀ k x, (s.post.getD i []).get? k = some x → k ≠ j → x < vj) →
      (bestQualityLabel s.post mv).getD i 0 = mv.getD i 0) := by
  refine ⟨?_, ?_, ?_⟩
  · simp only [getLabelQualityMA, hvalid, hmv, hs]
  · intro i hi j vj hj hstrict
    rw [bestQualityLabel_getD hi, maxPositions_eq_single hj hstrict]
  · intro i hi hnone
    rw [bestQualityLabel_getD hi]
    rcases hmp : maxPositions (s.post.getD i []) with - | ⟨a, - | ⟨b, t⟩⟩
    · rfl
    · rcases maxPositions_singleton_imp hmp with ⟨vj, hj, hstrict⟩
      exact absurd ⟨a, vj, hj, hstrict⟩ hnone
    · rfl

/-- The crowdlab consensus stats of the running example's majority-vote labels. -/
def exStats : ConsensusStats :=
  ⟨[1, 1, 1], [21/22, 10/11, 13/16],
    [[21/22, 1/22], [1/11, 10/11], [13/16, 3/16]], some (5/3), some [1, 1]⟩

/-- Witness for C2 at the running example: the majority-vote pass computes
`exStats`, and the best-quality branch returns the re-picked labels together with
a fresh consensus-stats pass over them. -/
theorem claim_C2_witness :
    getConsensusStats exampleLM examplePP [0, 1, 0] QualityMethod.crowdlab id =
      some exStats ∧
    getLabelQualityMA exampleLM examplePP ConsensusMethod.bestQuality
        QualityMethod.crowdlab id randHead =
      (getConsensusStats exampleLM examplePP (bestQualityLabel exStats.post [0, 1, 0])
        QualityMethod.crowdlab id).map
        (fun s2 => (bestQualityLabel exStats.post [0, 1, 0], s2)) := by
  have hs : getConsensusStats exampleLM examplePP [0, 1, 0]
      QualityMethod.crowdlab id = some exStats := by
    norm_num +decide [getConsensusStats, exStats, ConsensusStats.mk.injEq, lqScore,
      crowdlabPost, crowdlabWeights, mostLikelyClassError, mostFrequentClass,
      bincountK, firstArgmax, listMax, multiSubset, ppMultiSubset,
      imputedAgreements, singleAnnotatorAgreement, likelihood,
      annotatorAgreementWithConsensus, rowAgreement, meanQ, numAnnotationsOf,
      countSome, rowLabels, numClasses, crowdlabPostRow, npAverage, labeledPairs,
      exampleLM, examplePP, List.range_succ, List.filterMap_cons,
      List.zipWith_cons_cons, List.count_cons, List.count_nil, List.findIdx_cons,
      List.eraseIdx_cons_zero, List.eraseIdx_cons_succ]
  exact ⟨hs, (claim_C2_best_quality exampleLM examplePP QualityMethod.crowdlab id
    randHead [0, 1, 0] exStats (by decide) (by decide) hs).1⟩

end Multiannotator
